import Mathlib

/-!
# Pairwise correlation engine (`analyzers/my_corr/corr.hh`) and maximum
drawdown (`vectors/cal_return_sharpe_drawdown/cal_return_sharpe_drawdown.hh`)

A shallow embedding of `mean`, `variance`, `covariance`, `correlation`,
`calc_corr_child`, `calc_corr` and `itdog::cal_max_drawdown_parallel`.

* A C++ `double` is a value of `Dbl α`: either a finite number of the ordered
  field `α` (exact arithmetic), or `nan`, which stands for every result that is
  not a finite number (the quotient by zero, the root of a negative number, a
  value read past the end of a vector) and is absorbed by every later operation.
  In this program a denominator is never infinite, so nothing finite is ever
  recovered from a non-number.
* `sqrt` is passed as a function on `α`; the theorems take `α = ℝ` and
  `Real.sqrt`.
* A C++ `int` is an `Int`; the result of every `int` addition, subtraction and
  multiplication goes through `wrap32`, and `/` on `int` is `Int.tdiv`.
  The size of a vector is taken to fit an `int`.
* The ten threads only read `mv`; each one adds its local pair to the shared
  accumulator once, inside the mutex.  A run is therefore described by the
  order in which the ten merges happen.
-/

namespace Corr

/-- A `double` over exact arithmetic: a finite number or a non-number. -/
inductive Dbl (α : Type) where
  | fin (x : α)
  | nan
  deriving DecidableEq, Repr

namespace Dbl

variable {α : Type} [LinearOrderedField α]

/-- Addition of doubles. -/
def add : Dbl α → Dbl α → Dbl α
  | fin a, fin b => fin (a + b)
  | _, _ => nan

/-- Subtraction of doubles. -/
def sub : Dbl α → Dbl α → Dbl α
  | fin a, fin b => fin (a - b)
  | _, _ => nan

/-- Multiplication of doubles. -/
def mul : Dbl α → Dbl α → Dbl α
  | fin a, fin b => fin (a * b)
  | _, _ => nan

/-- Division of doubles: a zero divisor gives no finite number. -/
def div : Dbl α → Dbl α → Dbl α
  | fin a, fin b => if b = 0 then nan else fin (a / b)
  | _, _ => nan

/-- Square root of a double: a negative argument gives no finite number. -/
def sqrt (rt : α → α) : Dbl α → Dbl α
  | fin a => if a < 0 then nan else fin (rt a)
  | nan => nan

/-- Conversion of an `int` to a double. -/
def ofInt (n : Int) : Dbl α := fin (n : α)

instance : Add (Dbl α) := ⟨add⟩
instance : Sub (Dbl α) := ⟨sub⟩
instance : Mul (Dbl α) := ⟨mul⟩
instance : Div (Dbl α) := ⟨div⟩
instance : Zero (Dbl α) := ⟨fin 0⟩

/-- The comparison `x > y` of doubles: false as soon as one side is no number. -/
def gt : Dbl α → Dbl α → Bool
  | fin a, fin b => decide (b < a)
  | _, _ => false

/-- The sum a loop `s += t` started at `0.0` leaves after running over the
terms `l`. -/
def total (l : List (Dbl α)) : Dbl α := l.foldl (fun s t => s + t) (fin 0)

end Dbl

open Dbl

section Scalar

variable {α : Type} [LinearOrderedField α]

/-- The read `data[i]`: the sample at index `i` inside the vector.  Past the
end the source's `operator[]` has undefined behaviour; the model marks such a
read as `nan`. -/
def rd (data : List α) (i : Nat) : Dbl α :=
  match data[i]? with
  | some x => fin x
  | none => nan

/-- The source's `mean`: `sum` over `i = 0 .. n-1` of `data[i]`, then `sum / n`. -/
def mean (data : List α) : Dbl α :=
  let n : Int := data.length
  let sum := (List.range n.toNat).foldl (fun sum i => sum + rd data i) (fin 0)
  sum / ofInt n

/-- The source's `variance`: sum of squared deviations, then `sum / (n - 1)`. -/
def variance (data : List α) (mean : Dbl α) : Dbl α :=
  let n : Int := data.length
  let sum := (List.range n.toNat).foldl
    (fun sum i => sum + (rd data i - mean) * (rd data i - mean)) (fin 0)
  sum / ofInt (n - 1)

/-- The source's `covariance`: `n` is the size of `data1`, and `data2` is read
at the same indices. -/
def covariance (data1 data2 : List α) (mean1 mean2 : Dbl α) : Dbl α :=
  let n : Int := data1.length
  let sum := (List.range n.toNat).foldl
    (fun sum i => sum + (rd data1 i - mean1) * (rd data2 i - mean2)) (fin 0)
  sum / ofInt (n - 1)

/-- The source's `correlation`. -/
def correlation (rt : α → α) (data1 data2 : List α) : Dbl α :=
  let mean1 := mean data1
  let mean2 := mean data2
  let var1 := variance data1 mean1
  let var2 := variance data2 mean2
  let cov := covariance data1 data2 mean1 mean2
  cov / (Dbl.sqrt rt var1 * Dbl.sqrt rt var2)

end Scalar

section Engine

variable {α : Type} [LinearOrderedField α]

/-- The value an `int` operation leaves in 32 bits (two's complement). -/
def wrap32 (x : Int) : Int := (x + 2147483648) % 4294967296 - 2147483648

/-- The constant `NUM_PROCESSES` of `calc_corr`. -/
def NUM_PROCESSES : Int := 10

/-- The values of `i` in `for (int i = start; i <= end; i++)`. -/
def outer_range (start end_ : Int) : List Int :=
  (List.range (end_ + 1 - start).toNat).map (fun (t : Nat) => start + (t : Int))

/-- The values of `j` in `for (int j = i + 1; j < size; j++)`; the comparison
is unsigned, so a negative `j` ends the loop at once. -/
def inner_range (i : Int) (size : Nat) : List Int :=
  let j0 := wrap32 (i + 1)
  if j0 < 0 then [] else (List.range (size - j0.toNat)).map (fun (t : Nat) => j0 + (t : Int))

/-- The pairs `(i, j)` one worker visits, in the order of its two loops. -/
def child_pairs (start end_ : Int) (size : Nat) : List (Int × Int) :=
  (outer_range start end_).flatMap (fun i => (inner_range i size).map (fun j => (i, j)))

/-- The read `(*data)[i]` of one series. -/
def series_at (mv : List (List α)) (i : Int) : Option (List α) :=
  if i < 0 then none else mv[i.toNat]?

/-- The term `correlation((*data)[i], (*data)[j])` added for the pair `p`. -/
def pair_corr (rt : α → α) (mv : List (List α)) (p : Int × Int) : Dbl α :=
  match series_at mv p.1, series_at mv p.2 with
  | some a, some b => correlation rt a b
  | _, _ => nan

/-- The source's `calc_corr_child` up to its merge: the pair
`(local_sum, local_count)` after the two loops. -/
def calc_corr_child (rt : α → α) (start end_ : Int) (mv : List (List α)) : Dbl α × Int :=
  (child_pairs start end_ mv.length).foldl
    (fun acc p => (acc.1 + pair_corr rt mv p, wrap32 (acc.2 + 1))) (fin 0, 0)

/-- The merge inside the mutex: `*sum += local_sum; *count += local_count`. -/
def merge (acc loc : Dbl α × Int) : Dbl α × Int :=
  (acc.1 + loc.1, wrap32 (acc.2 + loc.2))

/-- The `start` handed to worker `i`: `i * col / NUM_PROCESSES`. -/
def worker_start (i col : Int) : Int :=
  (wrap32 (i * col)).tdiv NUM_PROCESSES

/-- The `end` handed to worker `i`: `(i + 1) * col / NUM_PROCESSES - 1`. -/
def worker_end (i col : Int) : Int :=
  wrap32 ((wrap32 (wrap32 (i + 1) * col)).tdiv NUM_PROCESSES - 1)

/-- The shared accumulator `(sum_correlation, count)` after the workers listed
in `order` have merged, in that order. -/
def accumulate (rt : α → α) (order : List Nat) (mv : List (List α)) : Dbl α × Int :=
  let col : Int := mv.length
  order.foldl
    (fun acc (k : Nat) => merge acc
      (calc_corr_child rt (worker_start (k : Int) col) (worker_end (k : Int) col) mv))
    (fin 0, 0)

/-- The source's `calc_corr` for a run whose merges happen in `order`:
`sum_correlation / count` once every worker has finished. -/
def calc_corr_sched (rt : α → α) (order : List Nat) (mv : List (List α)) : Dbl α :=
  let acc := accumulate rt order mv
  acc.1 / ofInt acc.2

/-- The source's `calc_corr` when the workers merge in the order they were
created. -/
def calc_corr (rt : α → α) (mv : List (List α)) : Dbl α :=
  calc_corr_sched rt (List.range NUM_PROCESSES.toNat) mv

/-- The pairs worker `k` visits for a collection of `N` series. -/
def worker_pairs (k N : Nat) : List (Int × Int) :=
  child_pairs (worker_start (k : Int) (N : Int)) (worker_end (k : Int) (N : Int)) N

/-- The pairs visited by the ten workers together, worker after worker. -/
def visited (N : Nat) : List (Int × Int) :=
  (List.range NUM_PROCESSES.toNat).flatMap (fun k => worker_pairs k N)

/-- The error taxonomy the specification names in its section 7. -/
inductive DomainError where
  | ShapeMismatch
  | InsufficientSamples
  | DegenerateSeries
  | EmptyCollection
  deriving DecidableEq, Repr

/-- How a call ends for its caller: with a returned double or with an error. -/
inductive Outcome (α : Type) where
  | returned (v : Dbl α)
  | raised (e : DomainError)

/-- The way a call of `calc_corr` ends.  The source has no `throw`, no error
code and no exit: its only way out is `return average_correlation`. -/
def calc_corr_call (rt : α → α) (order : List Nat) (mv : List (List α)) : Outcome α :=
  Outcome.returned (calc_corr_sched rt order mv)

/-- The way a call of `correlation` ends.  Like every function of the source it
can only return a double. -/
def correlation_call (rt : α → α) (data1 data2 : List α) : Outcome α :=
  Outcome.returned (correlation rt data1 data2)

/-- The indices `i` at which the loop of `covariance` reads `data2[i]`:
`i = 0 .. n - 1`, where `n` is the size of `data1`. -/
def covariance_reads (data1 : List α) : List Nat :=
  List.range ((data1.length : Int)).toNat

/-- The `start` of worker `i` when the constant `NUM_PROCESSES` is `W`. -/
def worker_start_n (W i col : Int) : Int :=
  (wrap32 (i * col)).tdiv W

/-- The `end` of worker `i` when the constant `NUM_PROCESSES` is `W`. -/
def worker_end_n (W i col : Int) : Int :=
  wrap32 ((wrap32 (wrap32 (i + 1) * col)).tdiv W - 1)

/-- The pairs worker `k` of `W` visits for a collection of `N` series. -/
def worker_pairs_n (W k N : Nat) : List (Int × Int) :=
  child_pairs (worker_start_n (W : Int) (k : Int) (N : Int))
    (worker_end_n (W : Int) (k : Int) (N : Int)) N

/-- The accumulator of `calc_corr` with `NUM_PROCESSES = W`, after the workers
listed in `order` have merged. -/
def accumulate_n (rt : α → α) (W : Nat) (order : List Nat) (mv : List (List α)) :
    Dbl α × Int :=
  let col : Int := mv.length
  order.foldl
    (fun acc (k : Nat) => merge acc
      (calc_corr_child rt (worker_start_n (W : Int) (k : Int) col)
        (worker_end_n (W : Int) (k : Int) col) mv))
    (fin 0, 0)

/-- The source's `calc_corr` with the constant `NUM_PROCESSES` (which its
comment invites to change) set to `W`, for a run whose merges happen in
`order`. -/
def calc_corr_workers (rt : α → α) (W : Nat) (order : List Nat) (mv : List (List α)) :
    Dbl α :=
  let acc := accumulate_n rt W order mv
  acc.1 / ofInt acc.2

end Engine

/-! ## The quantities the specification names -/

section SpecWords

variable {α : Type} [LinearOrderedField α]

/-- Arithmetic mean, in the specification's words. -/
def arith_mean (l : List α) : α := l.sum / (l.length : α)

/-- Sum of squared deviations from the arithmetic mean. -/
def dev_sq (l : List α) : α :=
  (l.map (fun x => (x - arith_mean l) * (x - arith_mean l))).sum

/-- Sum of the products of paired deviations. -/
def dev_prod (a b : List α) : α :=
  (List.zipWith (fun x y => (x - arith_mean a) * (y - arith_mean b)) a b).sum

/-- Sample variance with divisor `n - 1`, in the specification's words. -/
def sample_variance (l : List α) : α := dev_sq l / ((l.length : α) - 1)

/-- Sample covariance with divisor `n - 1`, in the specification's words. -/
def sample_covariance (a b : List α) : α := dev_prod a b / ((a.length : α) - 1)

/-- The Pearson coefficient, in the specification's words. -/
def pearson (rt : α → α) (a b : List α) : α := dev_prod a b / rt (dev_sq a * dev_sq b)

/-- The element-wise affine image `a * X + b` of a series. -/
def affine (a b : α) (X : List α) : List α := X.map (fun x => a * x + b)

/-- The index pairs `(i, j)` with `s <= i < s + len` and `i < j < N`, in
lexicographic order. -/
def pairs_between (s len N : Nat) : List (Int × Int) :=
  (List.range' s len).flatMap (fun (i : Nat) => (List.range' (i + 1) (N - (i + 1))).map
    (fun (j : Nat) => ((i : Int), (j : Int))))

/-- The index pairs `(i, j)` with `0 <= i < j < N`, in lexicographic order. -/
def all_pairs (N : Nat) : List (Int × Int) := pairs_between 0 N N

/-- The arithmetic mean of `correlation(mv[i], mv[j])` over the pairs
`0 <= i < j < N`, in the specification's words: the sum of the correlations
divided by `N * (N - 1) / 2`. -/
def mean_pairwise (rt : α → α) (mv : List (List α)) : Dbl α :=
  total ((all_pairs mv.length).map
      (fun p => correlation rt (mv.getD p.1.toNat []) (mv.getD p.2.toNat []))) /
    fin (((mv.length * (mv.length - 1) / 2 : Nat) : α))

end SpecWords

end Corr

/-! # Maximum drawdown -/

namespace itdog

open Corr Corr.Dbl

variable {α : Type} [LinearOrderedField α]

/-- The three locals of `cal_max_drawdown_parallel`. -/
structure DrawdownState (α : Type) where
  max_drawdown : Dbl α
  cum_max : Dbl α
  drawdown : Dbl α

/-- The loop body of `cal_max_drawdown_parallel` for `val = arr[i]`. -/
def drawdown_step (st : DrawdownState α) (val : Dbl α) : DrawdownState α :=
  if Dbl.gt val st.cum_max then
    { max_drawdown := st.max_drawdown, cum_max := val, drawdown := fin 0 }
  else
    let drawdown := (st.cum_max - val) / st.cum_max
    if Dbl.gt drawdown st.max_drawdown then
      { max_drawdown := drawdown, cum_max := st.cum_max, drawdown := drawdown }
    else
      { max_drawdown := st.max_drawdown, cum_max := st.cum_max, drawdown := drawdown }

/-- The locals after the loop `for (int i = 1; i < n; ++i)`. -/
def drawdown_loop (arr : List α) (n : Int) : DrawdownState α :=
  (List.range' 1 (n - 1).toNat).foldl (fun st (i : Nat) => drawdown_step st (rd arr i))
    { max_drawdown := fin 0, cum_max := rd arr 0, drawdown := fin 0 }

/-- The source's `cal_max_drawdown_parallel`: `-1.0 * max_drawdown` after the
loop. -/
def cal_max_drawdown_parallel (arr : List α) (n : Int) : Dbl α :=
  fin (-1) * (drawdown_loop arr n).max_drawdown

/-- The running maximum `M_i = max(arr[0..i])`. -/
def running_max (arr : List α) : Nat → α
  | 0 => arr.getD 0 0
  | i + 1 => max (running_max arr i) (arr.getD (i + 1) 0)

/-- The relative drawdown `(M_i - arr[i]) / M_i` at index `i`. -/
def drawdown_at (arr : List α) (i : Nat) : α :=
  (running_max arr i - arr.getD i 0) / running_max arr i

end itdog

namespace Corr

open Dbl

/-! ## Arithmetic of `Dbl` -/

namespace Dbl

variable {α : Type} [LinearOrderedField α]

@[simp] theorem fin_add_fin (a b : α) : (fin a + fin b : Dbl α) = fin (a + b) := rfl
@[simp] theorem nan_add (x : Dbl α) : (nan + x : Dbl α) = nan := rfl
@[simp] theorem add_nan (x : Dbl α) : (x + nan : Dbl α) = nan := by cases x <;> rfl
@[simp] theorem fin_sub_fin (a b : α) : (fin a - fin b : Dbl α) = fin (a - b) := rfl
@[simp] theorem nan_sub (x : Dbl α) : (nan - x : Dbl α) = nan := rfl
@[simp] theorem sub_nan (x : Dbl α) : (x - nan : Dbl α) = nan := by cases x <;> rfl
@[simp] theorem fin_mul_fin (a b : α) : (fin a * fin b : Dbl α) = fin (a * b) := rfl
@[simp] theorem nan_mul (x : Dbl α) : (nan * x : Dbl α) = nan := rfl
@[simp] theorem mul_nan (x : Dbl α) : (x * nan : Dbl α) = nan := by cases x <;> rfl
@[simp] theorem nan_div (x : Dbl α) : (nan / x : Dbl α) = nan := rfl
@[simp] theorem div_nan (x : Dbl α) : (x / nan : Dbl α) = nan := by cases x <;> rfl
@[simp] theorem zero_def : (0 : Dbl α) = fin 0 := rfl

theorem fin_div_fin (a b : α) :
    (fin a / fin b : Dbl α) = if b = 0 then nan else fin (a / b) := rfl

theorem fin_div_fin_of_ne (a : α) {b : α} (h : b ≠ 0) :
    (fin a / fin b : Dbl α) = fin (a / b) := by
  rw [fin_div_fin, if_neg h]

@[simp] theorem fin_div_zero (a : α) : (fin a / fin 0 : Dbl α) = nan := by
  rw [fin_div_fin, if_pos rfl]

theorem sqrt_fin (rt : α → α) {a : α} (h : 0 ≤ a) : Dbl.sqrt rt (fin a) = fin (rt a) := by
  simp [Dbl.sqrt, not_lt.mpr h]

@[simp] theorem sqrt_nan (rt : α → α) : Dbl.sqrt rt (nan : Dbl α) = nan := rfl

protected theorem add_comm (x y : Dbl α) : x + y = y + x := by
  cases x <;> cases y <;> simp [add_comm]

protected theorem add_assoc (x y z : Dbl α) : x + y + z = x + (y + z) := by
  cases x <;> cases y <;> cases z <;> simp [add_assoc]

protected theorem mul_comm (x y : Dbl α) : x * y = y * x := by
  cases x <;> cases y <;> simp [mul_comm]

protected theorem zero_add (x : Dbl α) : fin 0 + x = x := by
  cases x <;> simp

protected theorem add_zero (x : Dbl α) : x + fin 0 = x := by
  cases x <;> simp

theorem foldl_add_start (l : List (Dbl α)) (s : Dbl α) :
    l.foldl (fun s t => s + t) s = s + total l := by
  unfold total
  induction l generalizing s with
  | nil => simp [Dbl.add_zero]
  | cons t l ih =>
    simp only [List.foldl_cons]
    rw [ih (s + t), ih (fin 0 + t), Dbl.zero_add, Dbl.add_assoc]

theorem total_nil : total ([] : List (Dbl α)) = fin 0 := rfl

theorem total_cons (t : Dbl α) (l : List (Dbl α)) : total (t :: l) = t + total l := by
  show (t :: l).foldl (fun s t => s + t) (fin 0) = _
  rw [List.foldl_cons, foldl_add_start, Dbl.zero_add]

theorem total_append (l₁ l₂ : List (Dbl α)) : total (l₁ ++ l₂) = total l₁ + total l₂ := by
  induction l₁ with
  | nil => simp [total_nil, Dbl.zero_add]
  | cons t l ih => simp [total_cons, ih, Dbl.add_assoc]

theorem total_fin (l : List α) : total (l.map fin) = fin l.sum := by
  induction l with
  | nil => rfl
  | cons t l ih => simp [total_cons, ih]

theorem total_perm {l₁ l₂ : List (Dbl α)} (h : l₁.Perm l₂) : total l₁ = total l₂ := by
  induction h with
  | nil => rfl
  | cons t _ ih => simp [total_cons, ih]
  | swap a b l =>
    simp only [total_cons]
    rw [← Dbl.add_assoc, ← Dbl.add_assoc, Dbl.add_comm b a]
  | trans _ _ ih₁ ih₂ => exact ih₁.trans ih₂

theorem foldl_map_add {ι : Type} (f : ι → Dbl α) (l : List ι) (s : Dbl α) :
    l.foldl (fun s i => s + f i) s = s + total (l.map f) := by
  rw [← foldl_add_start, List.foldl_map]

end Dbl

/-! ## The scalar statistics in closed form -/

section ScalarLemmas

variable {α : Type} [LinearOrderedField α]

theorem rd_of_lt {data : List α} {i : Nat} (h : i < data.length) :
    rd data i = fin (data.getD i 0) := by
  simp [rd, List.getElem?_eq_getElem h, List.getD_eq_getElem _ _ h]

theorem rd_of_le {data : List α} {i : Nat} (h : data.length ≤ i) :
    rd data i = nan := by
  simp [rd, List.getElem?_eq_none h]

theorem map_range_getD {β : Type} (l : List α) (g : α → β) :
    (List.range l.length).map (fun i => g (l.getD i 0)) = l.map g := by
  apply List.ext_getElem
  · simp
  · intro i h₁ h₂
    simp at h₁
    simp [List.getElem?_eq_getElem h₁]

theorem map_range_getD₂ {β : Type} (a b : List α) (h : a.length = b.length)
    (g : α → α → β) :
    (List.range a.length).map (fun i => g (a.getD i 0) (b.getD i 0)) = List.zipWith g a b := by
  apply List.ext_getElem
  · simp [h]
  · intro i h₁ h₂
    simp at h₁
    have h₃ : i < b.length := h ▸ h₁
    simp [List.getElem?_eq_getElem h₁, List.getElem?_eq_getElem h₃]

theorem loop_fin (n : Nat) (f : Nat → Dbl α) (g : Nat → α)
    (h : ∀ i, i < n → f i = fin (g i)) :
    (List.range n).foldl (fun s i => s + f i) (fin 0) = fin ((List.range n).map g).sum := by
  rw [Dbl.foldl_map_add, Dbl.zero_add]
  have : (List.range n).map f = ((List.range n).map g).map fin := by
    rw [List.map_map]
    apply List.map_congr_left
    intro i hi
    exact h i (List.mem_range.mp hi)
  rw [this, Dbl.total_fin]

theorem mean_nil : mean ([] : List α) = nan := by
  simp [mean, ofInt]

theorem mean_eq {data : List α} (h : data ≠ []) : mean data = fin (arith_mean data) := by
  have hlen : (data.length : α) ≠ 0 := by
    simpa using h
  unfold mean
  simp only [Int.toNat_ofNat, ofInt, Int.cast_natCast]
  rw [loop_fin data.length _ (fun i => data.getD i 0) (fun i hi => rd_of_lt hi),
    map_range_getD data (fun x => x), List.map_id', Dbl.fin_div_fin_of_ne _ hlen]
  rfl

theorem variance_eq {data : List α} (h : 2 ≤ data.length) (m : α) :
    variance data (fin m) =
      fin ((data.map (fun x => (x - m) * (x - m))).sum / ((data.length : α) - 1)) := by
  have hlen : ((data.length : α) - 1) ≠ 0 := by
    have : (2 : α) ≤ (data.length : α) := by exact_mod_cast h
    linarith
  unfold variance
  simp only [Int.toNat_ofNat, ofInt, Int.cast_sub, Int.cast_natCast, Int.cast_one]
  rw [loop_fin data.length _ (fun i => (data.getD i 0 - m) * (data.getD i 0 - m))
      (fun i hi => by simp [rd_of_lt hi]),
    map_range_getD data (fun x => (x - m) * (x - m)), Dbl.fin_div_fin_of_ne _ hlen]

theorem covariance_eq {data1 data2 : List α} (hlen : data1.length = data2.length)
    (h : 2 ≤ data1.length) (m1 m2 : α) :
    covariance data1 data2 (fin m1) (fin m2) =
      fin ((List.zipWith (fun x y => (x - m1) * (y - m2)) data1 data2).sum /
        ((data1.length : α) - 1)) := by
  have hne : ((data1.length : α) - 1) ≠ 0 := by
    have : (2 : α) ≤ (data1.length : α) := by exact_mod_cast h
    linarith
  unfold covariance
  simp only [Int.toNat_ofNat, ofInt, Int.cast_sub, Int.cast_natCast, Int.cast_one]
  rw [loop_fin data1.length _ (fun i => (data1.getD i 0 - m1) * (data2.getD i 0 - m2))
      (fun i hi => by simp [rd_of_lt hi, rd_of_lt (hlen ▸ hi)]),
    map_range_getD₂ data1 data2 hlen (fun x y => (x - m1) * (y - m2)),
    Dbl.fin_div_fin_of_ne _ hne]

theorem ne_nil_of_two_le {data : List α} (h : 2 ≤ data.length) : data ≠ [] := by
  intro h0
  simp [h0] at h

theorem variance_mean_eq {data : List α} (h : 2 ≤ data.length) :
    variance data (mean data) = fin (sample_variance data) := by
  rw [mean_eq (ne_nil_of_two_le h), variance_eq h]
  rfl

theorem covariance_mean_eq {data1 data2 : List α} (hlen : data1.length = data2.length)
    (h : 2 ≤ data1.length) :
    covariance data1 data2 (mean data1) (mean data2) = fin (sample_covariance data1 data2) := by
  rw [mean_eq (ne_nil_of_two_le h), mean_eq (ne_nil_of_two_le (hlen ▸ h)),
    covariance_eq hlen h]
  rfl

theorem correlation_unfold (rt : α → α) {data1 data2 : List α}
    (hlen : data1.length = data2.length) (h : 2 ≤ data1.length) :
    correlation rt data1 data2 =
      fin (sample_covariance data1 data2) /
        (Dbl.sqrt rt (fin (sample_variance data1)) * Dbl.sqrt rt (fin (sample_variance data2))) := by
  unfold correlation
  simp only []
  rw [variance_mean_eq h, variance_mean_eq (hlen ▸ h), covariance_mean_eq hlen h]

theorem covariance_swap (data1 data2 : List α) (hlen : data1.length = data2.length)
    (m1 m2 : Dbl α) :
    covariance data1 data2 m1 m2 = covariance data2 data1 m2 m1 := by
  unfold covariance
  simp only [hlen]
  congr 2
  funext s i
  rw [Dbl.mul_comm]

theorem correlation_swap (rt : α → α) (X Y : List α) (hlen : X.length = Y.length) :
    correlation rt X Y = correlation rt Y X := by
  unfold correlation
  simp only []
  rw [covariance_swap X Y hlen, Dbl.mul_comm]

theorem dev_sq_nonneg (l : List α) : 0 ≤ dev_sq l := by
  unfold dev_sq
  apply List.sum_nonneg
  intro x hx
  obtain ⟨y, _, rfl⟩ := List.mem_map.mp hx
  exact mul_self_nonneg _

theorem pred_length_pos {l : List α} (h : 2 ≤ l.length) : (0 : α) < (l.length : α) - 1 := by
  have : (2 : α) ≤ (l.length : α) := by exact_mod_cast h
  linarith

theorem sample_variance_nonneg {l : List α} (h : 2 ≤ l.length) : 0 ≤ sample_variance l :=
  div_nonneg (dev_sq_nonneg l) (pred_length_pos h).le

theorem sample_variance_ne_zero_iff {l : List α} (h : 2 ≤ l.length) :
    sample_variance l ≠ 0 ↔ dev_sq l ≠ 0 := by
  unfold sample_variance
  simp [(pred_length_pos h).ne']

theorem dev_prod_self (l : List α) : dev_prod l l = dev_sq l := by
  unfold dev_prod dev_sq
  generalize arith_mean l = m
  induction l with
  | nil => rfl
  | cons x l ih => simp [ih]

theorem sum_zipWith_mul_left (c : α) (f : α → α → α) (X Y : List α) :
    (List.zipWith (fun x y => c * f x y) X Y).sum = c * (List.zipWith f X Y).sum := by
  induction X generalizing Y with
  | nil => simp
  | cons x X ih =>
    cases Y with
    | nil => simp
    | cons y Y => simp [ih, mul_add]

theorem arith_mean_affine (a b : α) {X : List α} (h : X ≠ []) :
    arith_mean (affine a b X) = a * arith_mean X + b := by
  have hlen : (X.length : α) ≠ 0 := by simpa using h
  have hsum : (affine a b X).sum = a * X.sum + b * (X.length : α) := by
    unfold affine
    clear h hlen
    induction X with
    | nil => simp
    | cons x X ih =>
      simp only [List.map_cons, List.sum_cons, ih, List.length_cons, Nat.cast_add, Nat.cast_one]
      ring
  unfold arith_mean
  rw [hsum]
  simp only [affine, List.length_map]
  field_simp

theorem dev_prod_affine_left (a b : α) {X : List α} (Y : List α) (h : X ≠ []) :
    dev_prod (affine a b X) Y = a * dev_prod X Y := by
  unfold dev_prod
  rw [arith_mean_affine a b h, ← sum_zipWith_mul_left]
  unfold affine
  rw [List.zipWith_map_left]
  congr 1
  apply congrArg (fun f => List.zipWith f X Y)
  funext x y
  ring

theorem dev_prod_comm (X Y : List α) : dev_prod X Y = dev_prod Y X := by
  unfold dev_prod
  rw [List.zipWith_comm]
  congr 1
  apply congrArg (fun f => List.zipWith f Y X)
  funext x y
  ring

theorem dev_sq_affine (a b : α) {X : List α} (h : X ≠ []) :
    dev_sq (affine a b X) = a * a * dev_sq X := by
  have hne : affine a b X ≠ [] := by simpa [affine] using h
  rw [← dev_prod_self, dev_prod_affine_left a b _ h, dev_prod_comm,
    dev_prod_affine_left a b _ h, dev_prod_self, mul_assoc]

theorem length_affine (a b : α) (X : List α) : (affine a b X).length = X.length := by
  simp [affine]

end ScalarLemmas

/-! ## The correlation over the reals -/

section RealLemmas

theorem correlation_eq_pearson {X Y : List ℝ} (hlen : X.length = Y.length)
    (h : 2 ≤ X.length) (hX : sample_variance X ≠ 0) (hY : sample_variance Y ≠ 0) :
    correlation Real.sqrt X Y = fin (pearson Real.sqrt X Y) := by
  have hY2 : 2 ≤ Y.length := hlen ▸ h
  have hn : (0 : ℝ) < (X.length : ℝ) - 1 := pred_length_pos h
  have hvX : 0 < sample_variance X := lt_of_le_of_ne (sample_variance_nonneg h) (Ne.symm hX)
  have hvY : 0 < sample_variance Y := lt_of_le_of_ne (sample_variance_nonneg hY2) (Ne.symm hY)
  have hden : Real.sqrt (sample_variance X) * Real.sqrt (sample_variance Y) ≠ 0 :=
    mul_ne_zero (Real.sqrt_ne_zero'.mpr hvX) (Real.sqrt_ne_zero'.mpr hvY)
  rw [correlation_unfold Real.sqrt hlen h, Dbl.sqrt_fin _ hvX.le, Dbl.sqrt_fin _ hvY.le,
    Dbl.fin_mul_fin, Dbl.fin_div_fin_of_ne _ hden]
  congr 1
  have hprod : Real.sqrt (sample_variance X) * Real.sqrt (sample_variance Y) =
      Real.sqrt (dev_sq X * dev_sq Y) / ((X.length : ℝ) - 1) := by
    rw [← Real.sqrt_mul hvX.le]
    unfold sample_variance
    rw [← hlen, div_mul_div_comm, Real.sqrt_div (mul_nonneg (dev_sq_nonneg X) (dev_sq_nonneg Y)),
      Real.sqrt_mul_self hn.le]
  have hroot : Real.sqrt (dev_sq X * dev_sq Y) ≠ 0 := by
    intro h0
    rw [hprod, h0, zero_div] at hden
    exact hden rfl
  rw [hprod]
  unfold sample_covariance pearson
  field_simp

theorem correlation_self_eq_one {X : List ℝ} (h : 2 ≤ X.length) (hX : sample_variance X ≠ 0) :
    correlation Real.sqrt X X = fin 1 := by
  rw [correlation_eq_pearson rfl h hX hX]
  congr 1
  have hd : dev_sq X ≠ 0 := (sample_variance_ne_zero_iff h).mp hX
  unfold pearson
  rw [dev_prod_self, Real.sqrt_mul_self (dev_sq_nonneg X)]
  exact div_self hd

theorem pearson_affine_left (a b : ℝ) (ha : 0 < a) {X : List ℝ} (Y : List ℝ) (h : X ≠ []) :
    pearson Real.sqrt (affine a b X) Y = pearson Real.sqrt X Y := by
  unfold pearson
  rw [dev_prod_affine_left a b Y h, dev_sq_affine a b h, mul_assoc,
    Real.sqrt_mul (mul_self_nonneg a), Real.sqrt_mul_self ha.le]
  by_cases hr : Real.sqrt (dev_sq X * dev_sq Y) = 0
  · simp [hr]
  · field_simp
    ring

theorem sample_variance_affine_ne_zero (a b : ℝ) (ha : 0 < a) {X : List ℝ}
    (h : 2 ≤ X.length) (hX : sample_variance X ≠ 0) :
    sample_variance (affine a b X) ≠ 0 := by
  have h2 : 2 ≤ (affine a b X).length := by rw [length_affine]; exact h
  rw [sample_variance_ne_zero_iff h2, dev_sq_affine a b (ne_nil_of_two_le h)]
  exact mul_ne_zero (mul_ne_zero ha.ne' ha.ne') ((sample_variance_ne_zero_iff h).mp hX)

end RealLemmas

/-! ## The partition and the visited pairs -/

section EngineLemmas

theorem wrap32_of_range {x : Int} (h1 : -2147483648 ≤ x) (h2 : x < 2147483648) :
    wrap32 x = x := by
  unfold wrap32
  omega

theorem wrap32_add_left (a b : Int) : wrap32 (wrap32 a + b) = wrap32 (a + b) := by
  unfold wrap32
  omega

theorem wrap32_add_right (a b : Int) : wrap32 (a + wrap32 b) = wrap32 (a + b) := by
  unfold wrap32
  omega

theorem worker_start_eq {k N : Nat} (hk : k < 10) (hN : 10 * N < 2147483648) :
    worker_start (k : Int) (N : Int) = ((k * N / 10 : Nat) : Int) := by
  have hkN : k * N ≤ 10 * N := Nat.mul_le_mul_right N (by omega)
  unfold worker_start NUM_PROCESSES
  have hcast : (k : Int) * (N : Int) = ((k * N : Nat) : Int) := by push_cast; ring
  rw [hcast]
  generalize k * N = m at hkN ⊢
  rw [wrap32_of_range (by omega) (by omega), Int.tdiv_eq_ediv (by omega) (by omega)]
  omega

theorem worker_end_eq {k N : Nat} (hk : k < 10) (hN : 10 * N < 2147483648) :
    worker_end (k : Int) (N : Int) = (((k + 1) * N / 10 : Nat) : Int) - 1 := by
  have hkN : (k + 1) * N ≤ 10 * N := Nat.mul_le_mul_right N (by omega)
  unfold worker_end NUM_PROCESSES
  rw [wrap32_of_range (x := (k : Int) + 1) (by omega) (by omega)]
  have hcast : ((k : Int) + 1) * (N : Int) = (((k + 1) * N : Nat) : Int) := by push_cast; ring
  rw [hcast]
  generalize (k + 1) * N = m at hkN ⊢
  rw [wrap32_of_range (x := (m : Int)) (by omega) (by omega),
    Int.tdiv_eq_ediv (by omega) (by omega)]
  rw [wrap32_of_range (by omega) (by omega)]
  omega

theorem outer_range_eq (s e : Nat) :
    outer_range (s : Int) ((e : Int) - 1) = (List.range' s (e - s)).map (fun (i : Nat) => (i : Int)) := by
  unfold outer_range
  have h : ((e : Int) - 1 + 1 - (s : Int)).toNat = e - s := by omega
  rw [h, List.range'_eq_map_range, List.map_map]
  apply List.map_congr_left
  intro t _
  simp

theorem inner_range_eq {i : Nat} (N : Nat) (hi : i + 1 < 2147483648) :
    inner_range (i : Int) N = (List.range' (i + 1) (N - (i + 1))).map (fun (j : Nat) => (j : Int)) := by
  unfold inner_range
  simp only []
  rw [wrap32_of_range (x := (i : Int) + 1) (by omega) (by omega)]
  have h0 : ¬ ((i : Int) + 1 < 0) := by omega
  have h1 : ((i : Int) + 1).toNat = i + 1 := by omega
  rw [if_neg h0, h1, List.range'_eq_map_range, List.map_map]
  apply List.map_congr_left
  intro t _
  simp

theorem flatMap_congr_mem {β γ : Type} (l : List β) (f g : β → List γ)
    (h : ∀ x, x ∈ l → f x = g x) : l.flatMap f = l.flatMap g := by
  induction l with
  | nil => rfl
  | cons x l ih =>
    simp only [List.flatMap_cons]
    rw [h x (List.mem_cons_self x l), ih (fun y hy => h y (List.mem_cons_of_mem x hy))]

theorem child_pairs_eq (s e N : Nat) (he : e < 2147483648) :
    child_pairs (s : Int) ((e : Int) - 1) N = pairs_between s (e - s) N := by
  unfold child_pairs pairs_between
  rw [outer_range_eq, List.flatMap_map]
  apply flatMap_congr_mem
  intro i hi
  have hi2 := List.mem_range'_1.mp hi
  rw [inner_range_eq N (by omega), List.map_map]
  rfl

theorem pairs_between_append (s a b N : Nat) :
    pairs_between s a N ++ pairs_between (s + a) b N = pairs_between s (a + b) N := by
  unfold pairs_between
  rw [← List.flatMap_append]
  congr 1
  have := List.range'_append s a b 1
  simpa [Nat.add_comm b a] using this

theorem worker_pairs_eq {k N : Nat} (hk : k < 10) (hN : 10 * N < 2147483648) :
    worker_pairs k N = pairs_between (k * N / 10) ((k + 1) * N / 10 - k * N / 10) N := by
  have hkN : (k + 1) * N ≤ 10 * N := Nat.mul_le_mul_right N (by omega)
  unfold worker_pairs
  rw [worker_start_eq hk hN, worker_end_eq hk hN, child_pairs_eq _ _ _ (by omega)]

theorem visited_prefix {N : Nat} (hN : 10 * N < 2147483648) (m : Nat) (hm : m ≤ 10) :
    (List.range m).flatMap (fun k => worker_pairs k N) = pairs_between 0 (m * N / 10) N := by
  induction m with
  | zero => simp [pairs_between]
  | succ m ih =>
    have hmono : m * N / 10 ≤ (m + 1) * N / 10 :=
      Nat.div_le_div_right (Nat.mul_le_mul_right N (by omega))
    rw [List.range_succ, List.flatMap_append, ih (by omega), List.flatMap_singleton,
      worker_pairs_eq (by omega) hN]
    have h := pairs_between_append 0 (m * N / 10) ((m + 1) * N / 10 - m * N / 10) N
    rw [Nat.zero_add] at h
    rw [h]
    congr 1
    omega

theorem visited_eq_all_pairs {N : Nat} (hN : 10 * N < 2147483648) :
    visited N = all_pairs N := by
  unfold visited all_pairs
  have h10 : NUM_PROCESSES.toNat = 10 := rfl
  rw [h10, visited_prefix hN 10 (le_refl 10)]
  congr 1
  omega

theorem mem_pairs_between {s len N : Nat} {p : Int × Int} :
    p ∈ pairs_between s len N ↔
      ∃ i j : Nat, p = ((i : Int), (j : Int)) ∧ s ≤ i ∧ i < s + len ∧ i < j ∧ j < N := by
  unfold pairs_between
  simp only [List.mem_flatMap, List.mem_map, List.mem_range'_1]
  constructor
  · rintro ⟨i, ⟨h1, h2⟩, j, ⟨h3, h4⟩, rfl⟩
    exact ⟨i, j, rfl, h1, h2, by omega, by omega⟩
  · rintro ⟨i, j, rfl, h1, h2, h3, h4⟩
    exact ⟨i, ⟨h1, h2⟩, j, ⟨by omega, by omega⟩, rfl⟩

theorem mem_all_pairs {N : Nat} {i j : Int} :
    (i, j) ∈ all_pairs N ↔ 0 ≤ i ∧ i < j ∧ j < (N : Int) := by
  unfold all_pairs
  rw [mem_pairs_between]
  constructor
  · rintro ⟨a, b, hp, _, _, h3, h4⟩
    simp only [Prod.mk.injEq] at hp
    omega
  · rintro ⟨h1, h2, h3⟩
    refine ⟨i.toNat, j.toNat, ?_, ?_, ?_, ?_, ?_⟩
    · simp only [Prod.mk.injEq]
      omega
    all_goals omega

theorem nodup_pairs_between (s len N : Nat) : (pairs_between s len N).Nodup := by
  unfold pairs_between
  rw [List.nodup_flatMap]
  constructor
  · intro i _
    apply List.Nodup.map
    · intro a b hab
      simp only [Prod.mk.injEq] at hab
      omega
    · exact List.nodup_range' _ _
  · apply List.Pairwise.imp_of_mem _ (List.nodup_range' s len)
    intro a b _ _ hab
    show List.Disjoint _ _
    intro p hpa hpb
    simp only [List.mem_map] at hpa hpb
    obtain ⟨j, _, rfl⟩ := hpa
    obtain ⟨j2, _, h⟩ := hpb
    simp only [Prod.mk.injEq] at h
    omega

theorem length_pairs_prefix (N m : Nat) (hm : m ≤ N) :
    2 * (pairs_between 0 m N).length + m * (m + 1) = 2 * m * N := by
  induction m with
  | zero => simp [pairs_between]
  | succ m ih =>
    have h := pairs_between_append 0 m 1 N
    rw [← h, List.length_append]
    have h1 : (pairs_between (0 + m) 1 N).length = N - (m + 1) := by
      simp [pairs_between]
    rw [h1]
    have ih2 := ih (by omega)
    obtain ⟨d, rfl⟩ : ∃ d, N = m + 1 + d := ⟨N - (m + 1), by omega⟩
    have h2 : m + 1 + d - (m + 1) = d := by omega
    rw [h2]
    nlinarith [ih2]

theorem length_all_pairs (N : Nat) : (all_pairs N).length = N * (N - 1) / 2 := by
  have h := length_pairs_prefix N N (le_refl N)
  unfold all_pairs
  cases N with
  | zero => simp [pairs_between]
  | succ n =>
    have h3 : n + 1 - 1 = n := by omega
    rw [h3]
    have h4 : 2 * (pairs_between 0 (n + 1) (n + 1)).length = (n + 1) * n := by nlinarith [h]
    omega

end EngineLemmas

/-! ## The accumulator -/

section AccumLemmas

variable {α : Type} [LinearOrderedField α]

theorem child_fold (rt : α → α) (mv : List (List α)) (l : List (Int × Int))
    (s : Dbl α) (c : Int) :
    l.foldl (fun acc p => (acc.1 + pair_corr rt mv p, wrap32 (acc.2 + 1))) (s, wrap32 c) =
      (s + total (l.map (pair_corr rt mv)), wrap32 (c + (l.length : Int))) := by
  induction l generalizing s c with
  | nil => simp [Dbl.total_nil, Dbl.add_zero]
  | cons p l ih =>
    simp only [List.foldl_cons, List.map_cons, List.length_cons]
    rw [wrap32_add_left, ih, Dbl.total_cons, Dbl.add_assoc]
    congr 2
    push_cast
    ring

theorem calc_corr_child_eq (rt : α → α) (start end_ : Int) (mv : List (List α)) :
    calc_corr_child rt start end_ mv =
      (total ((child_pairs start end_ mv.length).map (pair_corr rt mv)),
        wrap32 ((child_pairs start end_ mv.length).length : Int)) := by
  unfold calc_corr_child
  have h := child_fold rt mv (child_pairs start end_ mv.length) (fin 0) 0
  rw [show wrap32 0 = 0 from rfl, Dbl.zero_add, zero_add] at h
  exact h

theorem merge_mk (s t : Dbl α) (c d : Int) :
    merge (s, c) (t, d) = (s + t, wrap32 (c + d)) := rfl

theorem accumulate_fold (rt : α → α) (mv : List (List α)) (order : List Nat)
    (s : Dbl α) (c : Int) :
    order.foldl
        (fun acc (k : Nat) => merge acc
          (calc_corr_child rt (worker_start (k : Int) (mv.length : Int))
            (worker_end (k : Int) (mv.length : Int)) mv))
        (s, wrap32 c) =
      (s + total ((order.flatMap (fun k => worker_pairs k mv.length)).map (pair_corr rt mv)),
        wrap32 (c + ((order.flatMap (fun k => worker_pairs k mv.length)).length : Int))) := by
  induction order generalizing s c with
  | nil => simp [Dbl.total_nil, Dbl.add_zero]
  | cons k order ih =>
    simp only [List.foldl_cons, List.flatMap_cons, List.map_append, List.length_append]
    rw [calc_corr_child_eq, merge_mk, wrap32_add_left, wrap32_add_right, ih,
      Dbl.total_append, Dbl.add_assoc]
    congr 2
    unfold worker_pairs
    push_cast
    ring

theorem accumulate_eq (rt : α → α) (order : List Nat) (mv : List (List α)) :
    accumulate rt order mv =
      (total ((order.flatMap (fun k => worker_pairs k mv.length)).map (pair_corr rt mv)),
        wrap32 ((order.flatMap (fun k => worker_pairs k mv.length)).length : Int)) := by
  unfold accumulate
  have h := accumulate_fold rt mv order (fin 0) 0
  rw [show wrap32 0 = 0 from rfl, Dbl.zero_add, zero_add] at h
  exact h

theorem accumulate_perm (rt : α → α) {order : List Nat} (mv : List (List α))
    (hperm : order.Perm (List.range 10)) :
    accumulate rt order mv =
      (total ((visited mv.length).map (pair_corr rt mv)),
        wrap32 ((visited mv.length).length : Int)) := by
  rw [accumulate_eq]
  have hp : (order.flatMap (fun k => worker_pairs k mv.length)).Perm (visited mv.length) :=
    List.Perm.flatMap_right _ hperm
  rw [Dbl.total_perm (hp.map _), hp.length_eq]

theorem series_at_natCast (mv : List (List α)) {i : Nat} (h : i < mv.length) :
    series_at mv (i : Int) = some (mv.getD i []) := by
  unfold series_at
  have h0 : ¬ ((i : Int) < 0) := by omega
  rw [if_neg h0]
  simp [List.getElem?_eq_getElem h]

theorem pair_corr_of_mem (rt : α → α) (mv : List (List α)) {p : Int × Int}
    (hp : p ∈ all_pairs mv.length) :
    pair_corr rt mv p = correlation rt (mv.getD p.1.toNat []) (mv.getD p.2.toNat []) := by
  obtain ⟨i, j, rfl, _, _, hij, hj⟩ := mem_pairs_between.mp hp
  unfold pair_corr
  simp only []
  rw [series_at_natCast mv (by omega : i < mv.length), series_at_natCast mv hj]
  simp

theorem calc_corr_sched_eq (rt : α → α) {order : List Nat} (mv : List (List α))
    (hperm : order.Perm (List.range 10)) (hN : 10 * mv.length < 2147483648) :
    calc_corr_sched rt order mv =
      total ((all_pairs mv.length).map
          (fun p => correlation rt (mv.getD p.1.toNat []) (mv.getD p.2.toNat []))) /
        ofInt (wrap32 ((mv.length * (mv.length - 1) / 2 : Nat) : Int)) := by
  unfold calc_corr_sched
  simp only []
  rw [accumulate_perm rt mv hperm, visited_eq_all_pairs hN, length_all_pairs]
  simp only []
  congr 2
  apply List.map_congr_left
  intro p hp
  exact pair_corr_of_mem rt mv hp

theorem pair_count_small {N : Nat} (hN : N ≤ 65536) : N * (N - 1) / 2 < 2147483648 := by
  have h1 : N * (N - 1) ≤ 65536 * 65535 := Nat.mul_le_mul hN (by omega)
  omega

theorem calc_corr_sched_eq_mean (rt : α → α) {order : List Nat} (mv : List (List α))
    (hperm : order.Perm (List.range 10)) (hN : mv.length ≤ 65536) :
    calc_corr_sched rt order mv = mean_pairwise rt mv := by
  rw [calc_corr_sched_eq rt mv hperm (by omega)]
  have h := pair_count_small hN
  rw [wrap32_of_range (by omega) (by omega)]
  unfold mean_pairwise ofInt
  simp only [Int.cast_natCast]

theorem total_map_one {β : Type} (l : List β) (f : β → Dbl α)
    (h : ∀ x, x ∈ l → f x = fin 1) : total (l.map f) = fin (l.length : α) := by
  induction l with
  | nil => simp [Dbl.total_nil]
  | cons x l ih =>
    rw [List.map_cons, Dbl.total_cons, h x (List.mem_cons_self x l),
      ih (fun y hy => h y (List.mem_cons_of_mem x hy))]
    simp [add_comm]

theorem getD_mem (mv : List (List α)) {i : Nat} (h : i < mv.length) : mv.getD i [] ∈ mv := by
  rw [List.getD_eq_getElem _ _ h]
  exact List.getElem_mem h

theorem all_pairs_bounds {N : Nat} {p : Int × Int} (hp : p ∈ all_pairs N) :
    p.1.toNat < N ∧ p.2.toNat < N := by
  obtain ⟨i, j, rfl, _, _, hij, hj⟩ := mem_pairs_between.mp hp
  simp only [Int.toNat_ofNat]
  omega

theorem total_identical (rt : α → α) (mv : List (List α)) (X : List α)
    (hall : ∀ s, s ∈ mv → s = X) (hX : correlation rt X X = fin 1) :
    total ((all_pairs mv.length).map
        (fun p => correlation rt (mv.getD p.1.toNat []) (mv.getD p.2.toNat []))) =
      fin ((mv.length * (mv.length - 1) / 2 : Nat) : α) := by
  rw [total_map_one, length_all_pairs]
  intro p hp
  have hb := all_pairs_bounds hp
  show correlation rt (mv.getD p.1.toNat []) (mv.getD p.2.toNat []) = fin 1
  rw [hall _ (getD_mem mv hb.1), hall _ (getD_mem mv hb.2), hX]

theorem pair_count_pos {N : Nat} (h : 2 ≤ N) : 1 ≤ N * (N - 1) / 2 := by
  have h1 : 2 * 1 ≤ N * (N - 1) := Nat.mul_le_mul h (by omega)
  omega

theorem all_pairs_small {N : Nat} (h : N < 2) : all_pairs N = [] := by
  apply List.eq_nil_of_length_eq_zero
  rw [length_all_pairs]
  have h2 : N = 0 ∨ N = 1 := by omega
  rcases h2 with h2 | h2 <;> simp [h2]

theorem calc_corr_eq_sched (rt : α → α) (mv : List (List α)) :
    calc_corr rt mv = calc_corr_sched rt (List.range 10) mv := rfl

theorem accumulate_small (rt : α → α) {order : List Nat} (mv : List (List α))
    (hperm : order.Perm (List.range 10)) (h : mv.length < 2) :
    accumulate rt order mv = (fin 0, 0) := by
  rw [accumulate_perm rt mv hperm, visited_eq_all_pairs (by omega), all_pairs_small h]
  rfl

theorem calc_corr_sched_small (rt : α → α) {order : List Nat} (mv : List (List α))
    (hperm : order.Perm (List.range 10)) (h : mv.length < 2) :
    calc_corr_sched rt order mv = nan := by
  unfold calc_corr_sched
  simp only []
  rw [accumulate_small rt mv hperm h]
  simp [ofInt]

end AccumLemmas

/-! ## The average over the reals -/

section RealEngineLemmas

theorem sample_variance_zero_one : sample_variance ([0, 1] : List ℝ) ≠ 0 := by
  norm_num [sample_variance, dev_sq, arith_mean]

theorem mean_pairwise_fin (mv : List (List ℝ)) (n : Nat) (hN2 : 2 ≤ mv.length)
    (hn : 2 ≤ n) (hlen : ∀ s, s ∈ mv → s.length = n)
    (hvar : ∀ s, s ∈ mv → sample_variance s ≠ 0) :
    mean_pairwise Real.sqrt mv =
      fin (((all_pairs mv.length).map
          (fun p => pearson Real.sqrt (mv.getD p.1.toNat []) (mv.getD p.2.toNat []))).sum /
        ((mv.length * (mv.length - 1) / 2 : Nat) : ℝ)) := by
  have hP : ((mv.length * (mv.length - 1) / 2 : Nat) : ℝ) ≠ 0 := by
    have := pair_count_pos hN2
    exact_mod_cast (by omega : mv.length * (mv.length - 1) / 2 ≠ 0)
  have hmap : (all_pairs mv.length).map
        (fun p => correlation Real.sqrt (mv.getD p.1.toNat []) (mv.getD p.2.toNat [])) =
      ((all_pairs mv.length).map
        (fun p => pearson Real.sqrt (mv.getD p.1.toNat []) (mv.getD p.2.toNat []))).map fin := by
    rw [List.map_map]
    apply List.map_congr_left
    intro p hp
    have hb := all_pairs_bounds hp
    have h1 := getD_mem mv hb.1
    have h2 := getD_mem mv hb.2
    exact correlation_eq_pearson ((hlen _ h1).trans (hlen _ h2).symm)
      (by rw [hlen _ h1]; exact hn) (hvar _ h1) (hvar _ h2)
  unfold mean_pairwise
  rw [hmap, Dbl.total_fin, Dbl.fin_div_fin_of_ne _ hP]

theorem calc_corr_sched_identical (mv : List (List ℝ)) (X : List ℝ) {order : List Nat}
    (hperm : order.Perm (List.range 10)) (hN : 10 * mv.length < 2147483648)
    (hall : ∀ s, s ∈ mv → s = X) (hX : correlation Real.sqrt X X = fin 1) :
    calc_corr_sched Real.sqrt order mv =
      fin ((mv.length * (mv.length - 1) / 2 : Nat) : ℝ) /
        ofInt (wrap32 ((mv.length * (mv.length - 1) / 2 : Nat) : Int)) := by
  rw [calc_corr_sched_eq Real.sqrt mv hperm hN, total_identical Real.sqrt mv X hall hX]

theorem mean_pairwise_identical (mv : List (List ℝ)) (X : List ℝ)
    (hall : ∀ s, s ∈ mv → s = X) (hX : correlation Real.sqrt X X = fin 1) :
    mean_pairwise Real.sqrt mv =
      fin ((mv.length * (mv.length - 1) / 2 : Nat) : ℝ) /
        fin ((mv.length * (mv.length - 1) / 2 : Nat) : ℝ) := by
  unfold mean_pairwise
  rw [total_identical Real.sqrt mv X hall hX]

theorem sqrt_sq_lit (x : ℝ) (hx : 0 ≤ x) (y : ℝ) (h : y = x * x) : Real.sqrt y = x := by
  rw [h, Real.sqrt_mul_self hx]

theorem corr_A_B :
    correlation Real.sqrt ([1, 2, 3, 4] : List ℝ) [2, 4, 6, 8] = fin 1 := by
  rw [@correlation_eq_pearson [1, 2, 3, 4] [2, 4, 6, 8] rfl (by decide)
    (by norm_num [sample_variance, dev_sq, arith_mean])
    (by norm_num [sample_variance, dev_sq, arith_mean])]
  congr 1
  have h1 : dev_prod ([1, 2, 3, 4] : List ℝ) [2, 4, 6, 8] = 10 := by
    norm_num [dev_prod, arith_mean]
  have h2 : dev_sq ([1, 2, 3, 4] : List ℝ) = 5 := by norm_num [dev_sq, arith_mean]
  have h3 : dev_sq ([2, 4, 6, 8] : List ℝ) = 20 := by norm_num [dev_sq, arith_mean]
  unfold pearson
  rw [h1, h2, h3, sqrt_sq_lit 10 (by norm_num) _ (by norm_num)]
  norm_num

theorem corr_A_C :
    correlation Real.sqrt ([1, 2, 3, 4] : List ℝ) [4, 3, 2, 1] = fin (-1) := by
  rw [@correlation_eq_pearson [1, 2, 3, 4] [4, 3, 2, 1] rfl (by decide)
    (by norm_num [sample_variance, dev_sq, arith_mean])
    (by norm_num [sample_variance, dev_sq, arith_mean])]
  congr 1
  have h1 : dev_prod ([1, 2, 3, 4] : List ℝ) [4, 3, 2, 1] = -5 := by
    norm_num [dev_prod, arith_mean]
  have h2 : dev_sq ([1, 2, 3, 4] : List ℝ) = 5 := by norm_num [dev_sq, arith_mean]
  have h3 : dev_sq ([4, 3, 2, 1] : List ℝ) = 5 := by norm_num [dev_sq, arith_mean]
  unfold pearson
  rw [h1, h2, h3, sqrt_sq_lit 5 (by norm_num) _ (by norm_num)]
  norm_num

theorem corr_B_C :
    correlation Real.sqrt ([2, 4, 6, 8] : List ℝ) [4, 3, 2, 1] = fin (-1) := by
  rw [@correlation_eq_pearson [2, 4, 6, 8] [4, 3, 2, 1] rfl (by decide)
    (by norm_num [sample_variance, dev_sq, arith_mean])
    (by norm_num [sample_variance, dev_sq, arith_mean])]
  congr 1
  have h1 : dev_prod ([2, 4, 6, 8] : List ℝ) [4, 3, 2, 1] = -10 := by
    norm_num [dev_prod, arith_mean]
  have h2 : dev_sq ([2, 4, 6, 8] : List ℝ) = 20 := by norm_num [dev_sq, arith_mean]
  have h3 : dev_sq ([4, 3, 2, 1] : List ℝ) = 5 := by norm_num [dev_sq, arith_mean]
  unfold pearson
  rw [h1, h2, h3, sqrt_sq_lit 10 (by norm_num) _ (by norm_num)]
  norm_num

theorem all_pairs_three : all_pairs 3 = [(0, 1), (0, 2), (1, 2)] := by decide

theorem calc_corr_sched_A_B_C {order : List Nat} (hperm : order.Perm (List.range 10)) :
    calc_corr_sched Real.sqrt order
      [([1, 2, 3, 4] : List ℝ), [2, 4, 6, 8], [4, 3, 2, 1]] = fin (-1 / 3) := by
  rw [calc_corr_sched_eq Real.sqrt _ hperm (by decide)]
  simp only [List.length_cons, List.length_nil]
  rw [all_pairs_three, show wrap32 ((((0 + 1 + 1 + 1) * (0 + 1 + 1 + 1 - 1) / 2 : Nat)) : Int) = 3
    from by decide]
  simp only [List.map_cons, List.map_nil]
  rw [show ((0 : Int)).toNat = 0 from rfl, show ((1 : Int)).toNat = 1 from rfl,
    show ((2 : Int)).toNat = 2 from rfl]
  simp only [List.getD_cons_zero, List.getD_cons_succ]
  rw [corr_A_B, corr_A_C, corr_B_C]
  simp only [Dbl.total_cons, Dbl.total_nil, Dbl.fin_add_fin, ofInt]
  rw [Dbl.fin_div_fin_of_ne _ (by norm_num)]
  norm_num

theorem calc_corr_sched_three_copies (X : List ℝ) {order : List Nat}
    (hperm : order.Perm (List.range 10)) (hn : 2 ≤ X.length) (hX : sample_variance X ≠ 0) :
    calc_corr_sched Real.sqrt order [X, X, X] = fin 1 := by
  have hall : ∀ s, s ∈ [X, X, X] → s = X := by
    intro s hs
    simpa using hs
  rw [calc_corr_sched_identical [X, X, X] X hperm (by simp) hall
    (correlation_self_eq_one hn hX)]
  rw [show [X, X, X].length * ([X, X, X].length - 1) / 2 = 3 from by simp,
    show wrap32 ((3 : Nat) : Int) = 3 from by decide]
  unfold ofInt
  rw [Dbl.fin_div_fin_of_ne _ (by norm_num)]
  norm_num

end RealEngineLemmas

/-! ## The scalar statistics: contract, symmetry, self-correlation, invariance -/

section ScalarClaims

/-- C4: for two series of equal length `n >= 2`, `mean` returns the arithmetic
means, `variance` and `covariance` return the sample variance and covariance
with divisor `n - 1`, and `correlation` returns `cov / (sqrt varA * sqrt varB)`;
when both variances are non-zero this is the Pearson coefficient
`sum((a - meanA)(b - meanB)) / sqrt(sum((a - meanA)^2) * sum((b - meanB)^2))`. -/
theorem correlation_contract (A B : List ℝ) (hlen : A.length = B.length)
    (hn : 2 ≤ A.length) :
    mean A = fin (arith_mean A) ∧ mean B = fin (arith_mean B) ∧
    variance A (mean A) = fin (sample_variance A) ∧
    variance B (mean B) = fin (sample_variance B) ∧
    covariance A B (mean A) (mean B) = fin (sample_covariance A B) ∧
    correlation Real.sqrt A B =
      fin (sample_covariance A B) /
        fin (Real.sqrt (sample_variance A) * Real.sqrt (sample_variance B)) ∧
    (sample_variance A ≠ 0 → sample_variance B ≠ 0 →
      correlation Real.sqrt A B =
        fin (dev_prod A B / Real.sqrt (dev_sq A * dev_sq B))) := by
  have hB : 2 ≤ B.length := hlen ▸ hn
  refine ⟨mean_eq (ne_nil_of_two_le hn), mean_eq (ne_nil_of_two_le hB), variance_mean_eq hn,
    variance_mean_eq hB, covariance_mean_eq hlen hn, ?_, ?_⟩
  · rw [correlation_unfold Real.sqrt hlen hn, Dbl.sqrt_fin _ (sample_variance_nonneg hn),
      Dbl.sqrt_fin _ (sample_variance_nonneg hB), Dbl.fin_mul_fin]
  · intro hA hB0
    exact correlation_eq_pearson hlen hn hA hB0

/-- C5: `correlation(X, Y)` equals `correlation(Y, X)` for series of equal
length. -/
theorem correlation_symmetric (X Y : List ℝ) (hlen : X.length = Y.length) :
    correlation Real.sqrt X Y = correlation Real.sqrt Y X :=
  correlation_swap Real.sqrt X Y hlen

/-- C6: `correlation(X, X)` is `1` for a series of length at least 2 whose
sample variance is non-zero. -/
theorem correlation_self (X : List ℝ) (hn : 2 ≤ X.length) (hX : sample_variance X ≠ 0) :
    correlation Real.sqrt X X = fin 1 :=
  correlation_self_eq_one hn hX

/-- C7: for series `X`, `Y` of equal length at least 2 with non-zero variance,
`a > 0` and any `b`, `correlation(a*X + b, Y) = correlation(X, Y)`, and the
same in the second argument. -/
theorem correlation_affine_invariant (X Y : List ℝ) (a b : ℝ)
    (hlen : X.length = Y.length) (hn : 2 ≤ X.length)
    (hX : sample_variance X ≠ 0) (hY : sample_variance Y ≠ 0) (ha : 0 < a) :
    correlation Real.sqrt (affine a b X) Y = correlation Real.sqrt X Y ∧
    correlation Real.sqrt X (affine a b Y) = correlation Real.sqrt X Y := by
  have hYn : 2 ≤ Y.length := hlen ▸ hn
  have hXa := sample_variance_affine_ne_zero a b ha hn hX
  have hYa := sample_variance_affine_ne_zero a b ha hYn hY
  constructor
  · rw [correlation_eq_pearson (by rw [length_affine]; exact hlen)
        (by rw [length_affine]; exact hn) hXa hY,
      correlation_eq_pearson hlen hn hX hY, pearson_affine_left a b ha Y (ne_nil_of_two_le hn)]
  · rw [correlation_swap Real.sqrt X (affine a b Y) (by rw [length_affine]; exact hlen),
      correlation_eq_pearson (by rw [length_affine]; exact hlen.symm)
        (by rw [length_affine]; exact hYn) hYa hX,
      pearson_affine_left a b ha X (ne_nil_of_two_le hYn),
      ← correlation_eq_pearson hlen.symm hYn hY hX, correlation_swap Real.sqrt Y X hlen.symm]

/-- C4 at `A = [1,2,3,4]`, `B = [2,4,6,8]`. -/
theorem correlation_contract_witness :
    ([1, 2, 3, 4] : List ℝ).length = ([2, 4, 6, 8] : List ℝ).length ∧
    2 ≤ ([1, 2, 3, 4] : List ℝ).length ∧
    correlation Real.sqrt ([1, 2, 3, 4] : List ℝ) [2, 4, 6, 8] =
      fin (dev_prod ([1, 2, 3, 4] : List ℝ) [2, 4, 6, 8] /
        Real.sqrt (dev_sq ([1, 2, 3, 4] : List ℝ) * dev_sq ([2, 4, 6, 8] : List ℝ))) :=
  ⟨rfl, by decide,
    (correlation_contract [1, 2, 3, 4] [2, 4, 6, 8] rfl (by decide)).2.2.2.2.2.2
      (by norm_num [sample_variance, dev_sq, arith_mean])
      (by norm_num [sample_variance, dev_sq, arith_mean])⟩

/-- C5 at `X = [1,2,3,4]`, `Y = [4,3,2,1]`. -/
theorem correlation_symmetric_witness :
    ([1, 2, 3, 4] : List ℝ).length = ([4, 3, 2, 1] : List ℝ).length ∧
    correlation Real.sqrt ([1, 2, 3, 4] : List ℝ) [4, 3, 2, 1] =
      correlation Real.sqrt ([4, 3, 2, 1] : List ℝ) [1, 2, 3, 4] :=
  ⟨rfl, correlation_symmetric [1, 2, 3, 4] [4, 3, 2, 1] rfl⟩

/-- C6 at `X = [0, 1]`. -/
theorem correlation_self_witness :
    2 ≤ ([0, 1] : List ℝ).length ∧ sample_variance ([0, 1] : List ℝ) ≠ 0 ∧
    correlation Real.sqrt ([0, 1] : List ℝ) [0, 1] = fin 1 :=
  ⟨by decide, sample_variance_zero_one,
    correlation_self [0, 1] (by decide) sample_variance_zero_one⟩

/-- C7 at `X = [0, 1]`, `Y = [0, 1]`, `a = 2`, `b = 3`. -/
theorem correlation_affine_invariant_witness :
    (0 : ℝ) < 2 ∧ sample_variance ([0, 1] : List ℝ) ≠ 0 ∧
    correlation Real.sqrt (affine 2 3 ([0, 1] : List ℝ)) [0, 1] =
      correlation Real.sqrt ([0, 1] : List ℝ) [0, 1] ∧
    correlation Real.sqrt ([0, 1] : List ℝ) (affine 2 3 [0, 1]) =
      correlation Real.sqrt ([0, 1] : List ℝ) [0, 1] :=
  ⟨by norm_num, sample_variance_zero_one,
    correlation_affine_invariant [0, 1] [0, 1] 2 3 rfl (by decide)
      sample_variance_zero_one sample_variance_zero_one (by norm_num)⟩

end ScalarClaims

/-! ## Membership in the workers' ranges -/

section RangeLemmas

theorem mem_outer_range {start end_ i : Int} :
    i ∈ outer_range start end_ ↔ start ≤ i ∧ i ≤ end_ := by
  unfold outer_range
  simp only [List.mem_map, List.mem_range]
  constructor
  · rintro ⟨t, ht, rfl⟩
    omega
  · rintro ⟨h1, h2⟩
    exact ⟨(i - start).toNat, by omega, by omega⟩

theorem mem_worker_range {k N : Nat} (hk : k < 10) (hN : 10 * N < 2147483648) (i : Int) :
    i ∈ outer_range (worker_start (k : Int) (N : Int)) (worker_end (k : Int) (N : Int)) ↔
      ((k * N / 10 : Nat) : Int) ≤ i ∧ i < (((k + 1) * N / 10 : Nat) : Int) := by
  rw [mem_outer_range, worker_start_eq hk hN, worker_end_eq hk hN]
  omega

theorem bounds_mono {k m N : Nat} (h : k < m) : (k + 1) * N / 10 ≤ m * N / 10 :=
  Nat.div_le_div_right (Nat.mul_le_mul_right N h)

theorem range_exists {N a : Nat} (ha : a < N) :
    ∃ k : Nat, k < 10 ∧ k * N / 10 ≤ a ∧ a < (k + 1) * N / 10 := by
  by_contra hc
  push_neg at hc
  have h0 := hc 0 (by omega)
  have h1 := hc 1 (by omega)
  have h2 := hc 2 (by omega)
  have h3 := hc 3 (by omega)
  have h4 := hc 4 (by omega)
  have h5 := hc 5 (by omega)
  have h6 := hc 6 (by omega)
  have h7 := hc 7 (by omega)
  have h8 := hc 8 (by omega)
  have h9 := hc 9 (by omega)
  omega

theorem range_unique {N a k m : Nat}
    (hk : k * N / 10 ≤ a ∧ a < (k + 1) * N / 10)
    (hm : m * N / 10 ≤ a ∧ a < (m + 1) * N / 10) : k = m := by
  rcases Nat.lt_trichotomy k m with h | h | h
  · have := bounds_mono (N := N) h
    omega
  · exact h
  · have := bounds_mono (N := N) h
    omega

theorem child_pairs_outer {start end_ : Int} {size : Nat} {p : Int × Int}
    (h : p ∈ child_pairs start end_ size) : start ≤ p.1 ∧ p.1 ≤ end_ := by
  unfold child_pairs at h
  simp only [List.mem_flatMap, List.mem_map] at h
  obtain ⟨i, hi, j, _, rfl⟩ := h
  exact mem_outer_range.mp hi

end RangeLemmas

/-! ## The pairwise reduction -/

section EngineClaims

/-- C2 (amended): for a collection size `N` with `10 * N <= 2^31 - 1`, the
pairs visited by the ten workers of `calc_corr`, taken together, contain every
pair `(i, j)` with `0 <= i < j < N` exactly once and no other pair. -/
theorem visited_exactly_once (N : Nat) (hN : 10 * N < 2147483648) (i j : Int) :
    Multiset.count (i, j) (Multiset.ofList (visited N)) =
      if 0 ≤ i ∧ i < j ∧ j < (N : Int) then 1 else 0 := by
  rw [visited_eq_all_pairs hN]
  split
  · next h =>
    exact Multiset.count_eq_one_of_mem (Multiset.coe_nodup.mpr (nodup_pairs_between 0 N N))
      (Multiset.mem_coe.mpr (mem_all_pairs.mpr h))
  · next h =>
    exact Multiset.count_eq_zero_of_not_mem
      (fun hm => h (mem_all_pairs.mp (Multiset.mem_coe.mp hm)))

/-- C2, as stated, fails for `N = 214748365`: `10 * N` does not fit an `int`,
the last worker gets the empty range `[193273528, -214748365]`, and the pair
`(214748363, 214748364)` is visited by no worker. -/
theorem visited_misses_pair :
    (0 : Int) ≤ 214748363 ∧ (214748363 : Int) < 214748364 ∧
    (214748364 : Int) < ((214748365 : Nat) : Int) ∧
    worker_start 9 ((214748365 : Nat) : Int) = 193273528 ∧
    worker_end 9 ((214748365 : Nat) : Int) = -214748365 ∧
    Multiset.count ((214748363 : Int), (214748364 : Int))
      (Multiset.ofList (visited 214748365)) = 0 := by
  refine ⟨by decide, by decide, by decide, by decide, by decide, ?_⟩
  apply Multiset.count_eq_zero_of_not_mem
  intro hm
  replace hm := Multiset.mem_coe.mp hm
  unfold visited at hm
  rw [show NUM_PROCESSES.toNat = 10 from rfl] at hm
  obtain ⟨k, hk, hp⟩ := List.mem_flatMap.mp hm
  have hk10 : k < 10 := List.mem_range.mp hk
  have hb := child_pairs_outer hp
  simp only [] at hb
  interval_cases k <;> revert hb <;> decide

/-- C3: when `10 * N` fits an `int`, the ten ranges `[start_k, end_k]` of
`calc_corr` are the half-open ranges `[floor(k*N/10), floor((k+1)*N/10))`, every
index of `[0, N)` lies in exactly one of them, and none of them holds an index
outside `[0, N)`. -/
theorem partition_disjoint_cover (N : Nat) (hN : 10 * N < 2147483648) :
    (∀ k : Nat, k < 10 →
      worker_start (k : Int) (N : Int) = ((k * N / 10 : Nat) : Int) ∧
      worker_end (k : Int) (N : Int) = (((k + 1) * N / 10 : Nat) : Int) - 1) ∧
    (∀ k : Nat, k < 10 → ∀ i : Int,
      i ∈ outer_range (worker_start (k : Int) (N : Int)) (worker_end (k : Int) (N : Int)) ↔
        ((k * N / 10 : Nat) : Int) ≤ i ∧ i < (((k + 1) * N / 10 : Nat) : Int)) ∧
    (∀ i : Int, 0 ≤ i → i < (N : Int) →
      ∃! k : Nat, k < 10 ∧
        i ∈ outer_range (worker_start (k : Int) (N : Int)) (worker_end (k : Int) (N : Int))) ∧
    (∀ k : Nat, k < 10 → ∀ i : Int,
      i ∈ outer_range (worker_start (k : Int) (N : Int)) (worker_end (k : Int) (N : Int)) →
        0 ≤ i ∧ i < (N : Int)) := by
  refine ⟨fun k hk => ⟨worker_start_eq hk hN, worker_end_eq hk hN⟩,
    fun k hk i => mem_worker_range hk hN i, ?_, ?_⟩
  · intro i h0 hi
    obtain ⟨a, rfl⟩ := Int.eq_ofNat_of_zero_le h0
    have ha : a < N := by omega
    obtain ⟨k, hk, h1, h2⟩ := range_exists ha
    refine ⟨k, ⟨hk, (mem_worker_range hk hN _).mpr ⟨by omega, by omega⟩⟩, ?_⟩
    rintro m ⟨hm, hmem⟩
    have hm2 := (mem_worker_range hm hN _).mp hmem
    exact range_unique (N := N) (a := a) ⟨by omega, by omega⟩ ⟨h1, h2⟩
  · intro k hk i hmem
    have h := (mem_worker_range hk hN i).mp hmem
    have hle : (k + 1) * N / 10 ≤ 10 * N / 10 :=
      Nat.div_le_div_right (Nat.mul_le_mul_right N (by omega))
    omega

/-- C1 (amended): for a collection of `2 <= N <= 65536` series of one length
`n >= 2` with non-zero variance, and for every order of the ten merges,
`calc_corr` returns the arithmetic mean of `correlation(mv[i], mv[j])` over the
pairs `0 <= i < j < N`, which is the finite number
`(sum over i<j of the Pearson coefficients) / (N*(N-1)/2)`. -/
theorem calc_corr_mean (mv : List (List ℝ)) (order : List Nat) (n : Nat)
    (hperm : order.Perm (List.range 10)) (hN2 : 2 ≤ mv.length) (hN : mv.length ≤ 65536)
    (hn : 2 ≤ n) (hlen : ∀ s, s ∈ mv → s.length = n)
    (hvar : ∀ s, s ∈ mv → sample_variance s ≠ 0) :
    calc_corr_sched Real.sqrt order mv = mean_pairwise Real.sqrt mv ∧
    mean_pairwise Real.sqrt mv =
      fin (((all_pairs mv.length).map
          (fun p => pearson Real.sqrt (mv.getD p.1.toNat []) (mv.getD p.2.toNat []))).sum /
        ((mv.length * (mv.length - 1) / 2 : Nat) : ℝ)) :=
  ⟨calc_corr_sched_eq_mean Real.sqrt mv hperm hN, mean_pairwise_fin mv n hN2 hn hlen hvar⟩

/-- C1, as stated, fails for `N = 65537` identical series `[0, 1]`: the pair
count `2147516416` does not fit the `int` counter, the divisor becomes
`-2147450880`, and `calc_corr` returns a negative number while the mean of the
pairwise correlations is `1`. -/
theorem calc_corr_not_mean_65537 :
    (List.replicate 65537 ([0, 1] : List ℝ)).length = 65537 ∧
    (∀ s, s ∈ List.replicate 65537 ([0, 1] : List ℝ) →
      s.length = 2 ∧ sample_variance s ≠ 0) ∧
    calc_corr Real.sqrt (List.replicate 65537 ([0, 1] : List ℝ)) =
      fin (2147516416 / (-2147450880)) ∧
    mean_pairwise Real.sqrt (List.replicate 65537 ([0, 1] : List ℝ)) = fin 1 ∧
    calc_corr Real.sqrt (List.replicate 65537 ([0, 1] : List ℝ)) ≠
      mean_pairwise Real.sqrt (List.replicate 65537 ([0, 1] : List ℝ)) := by
  have hX : correlation Real.sqrt ([0, 1] : List ℝ) [0, 1] = fin 1 :=
    correlation_self_eq_one (by decide) sample_variance_zero_one
  generalize hmv : List.replicate 65537 ([0, 1] : List ℝ) = mv
  have hlen : mv.length = 65537 := by rw [← hmv]; exact List.length_replicate _ _
  have hall : ∀ s, s ∈ mv → s = [0, 1] := by
    intro s hs
    rw [← hmv] at hs
    exact List.eq_of_mem_replicate hs
  have hP : mv.length * (mv.length - 1) / 2 = 2147516416 := by rw [hlen]
  have hcalc : calc_corr Real.sqrt mv = fin (2147516416 / (-2147450880)) := by
    rw [calc_corr_eq_sched,
      calc_corr_sched_identical mv [0, 1] (List.Perm.refl _) (by rw [hlen]; decide) hall hX, hP,
      show wrap32 ((2147516416 : Nat) : Int) = -2147450880 from by decide]
    unfold ofInt
    rw [Dbl.fin_div_fin_of_ne _ (by norm_num)]
    norm_num
  have hmean : mean_pairwise Real.sqrt mv = fin 1 := by
    rw [mean_pairwise_identical mv [0, 1] hall hX, hP,
      Dbl.fin_div_fin_of_ne _ (by norm_num)]
    norm_num
  refine ⟨hlen, ?_, hcalc, hmean, ?_⟩
  · intro s hs
    rw [hall s hs]
    exact ⟨rfl, sample_variance_zero_one⟩
  · rw [hcalc, hmean]
    intro h
    injection h with h
    norm_num at h

/-- C1 (amended) at the collection `[[0, 1], [0, 1]]`, merges in creation
order. -/
theorem calc_corr_mean_witness :
    (List.range 10).Perm (List.range 10) ∧
    2 ≤ [([0, 1] : List ℝ), [0, 1]].length ∧ [([0, 1] : List ℝ), [0, 1]].length ≤ 65536 ∧
    calc_corr_sched Real.sqrt (List.range 10) [([0, 1] : List ℝ), [0, 1]] =
      mean_pairwise Real.sqrt [([0, 1] : List ℝ), [0, 1]] :=
  ⟨List.Perm.refl _, by decide, by decide,
    (calc_corr_mean [[0, 1], [0, 1]] (List.range 10) 2 (List.Perm.refl _) (by decide)
      (by decide) (by decide)
      (by
        intro s hs
        have : s = [0, 1] := by simpa using hs
        rw [this]
        rfl)
      (by
        intro s hs
        have : s = [0, 1] := by simpa using hs
        rw [this]
        exact sample_variance_zero_one)).1⟩

/-- C2 (amended) at `N = 3`, pair `(0, 1)`. -/
theorem visited_exactly_once_witness :
    10 * 3 < 2147483648 ∧
    Multiset.count ((0 : Int), (1 : Int)) (Multiset.ofList (visited 3)) =
      if (0 : Int) ≤ 0 ∧ (0 : Int) < 1 ∧ (1 : Int) < ((3 : Nat) : Int) then 1 else 0 :=
  ⟨by decide, visited_exactly_once 3 (by decide) 0 1⟩

/-- C3 at `N = 25`: worker 3 gets the range `[7, 9]`. -/
theorem partition_disjoint_cover_witness :
    10 * 25 < 2147483648 ∧
    worker_start ((3 : Nat) : Int) ((25 : Nat) : Int) = ((3 * 25 / 10 : Nat) : Int) ∧
    worker_end ((3 : Nat) : Int) ((25 : Nat) : Int) = (((3 + 1) * 25 / 10 : Nat) : Int) - 1 :=
  ⟨by decide, (partition_disjoint_cover 25 (by decide)).1 3 (by decide)⟩

/-- C8: `correlation(A, B) = 1`, `correlation(A, C) = -1`,
`correlation(B, C) = -1` for `A = [1,2,3,4]`, `B = [2,4,6,8]`, `C = [4,3,2,1]`,
and `calc_corr` on `[A, B, C]` returns `-1/3`, in the creation order of the
merges and in every other order. -/
theorem scenario_A_B_C (order : List Nat) (hperm : order.Perm (List.range 10)) :
    correlation Real.sqrt ([1, 2, 3, 4] : List ℝ) [2, 4, 6, 8] = fin 1 ∧
    correlation Real.sqrt ([1, 2, 3, 4] : List ℝ) [4, 3, 2, 1] = fin (-1) ∧
    correlation Real.sqrt ([2, 4, 6, 8] : List ℝ) [4, 3, 2, 1] = fin (-1) ∧
    calc_corr Real.sqrt [([1, 2, 3, 4] : List ℝ), [2, 4, 6, 8], [4, 3, 2, 1]] =
      fin (-1 / 3) ∧
    calc_corr_sched Real.sqrt order [([1, 2, 3, 4] : List ℝ), [2, 4, 6, 8], [4, 3, 2, 1]] =
      fin (-1 / 3) :=
  ⟨corr_A_B, corr_A_C, corr_B_C,
    (calc_corr_eq_sched Real.sqrt _).trans (calc_corr_sched_A_B_C (List.Perm.refl _)),
    calc_corr_sched_A_B_C hperm⟩

/-- C8 with the merges in the order `9, 8, ..., 0`. -/
theorem scenario_A_B_C_witness :
    (List.range 10).reverse.Perm (List.range 10) ∧
    calc_corr_sched Real.sqrt (List.range 10).reverse
      [([1, 2, 3, 4] : List ℝ), [2, 4, 6, 8], [4, 3, 2, 1]] = fin (-1 / 3) :=
  ⟨List.reverse_perm _,
    (scenario_A_B_C (List.range 10).reverse (List.reverse_perm _)).2.2.2.2⟩

/-- C9: for a series `X` of length at least 2 with non-zero variance,
`calc_corr` on `[X, X, X]` returns `1`, in the creation order of the merges and
in every other order. -/
theorem three_copies (X : List ℝ) (order : List Nat) (hperm : order.Perm (List.range 10))
    (hn : 2 ≤ X.length) (hX : sample_variance X ≠ 0) :
    calc_corr Real.sqrt [X, X, X] = fin 1 ∧
    calc_corr_sched Real.sqrt order [X, X, X] = fin 1 :=
  ⟨(calc_corr_eq_sched Real.sqrt _).trans
      (calc_corr_sched_three_copies X (List.Perm.refl _) hn hX),
    calc_corr_sched_three_copies X hperm hn hX⟩

/-- C9 at `X = [0, 1]`. -/
theorem three_copies_witness :
    2 ≤ ([0, 1] : List ℝ).length ∧ sample_variance ([0, 1] : List ℝ) ≠ 0 ∧
    calc_corr Real.sqrt [([0, 1] : List ℝ), [0, 1], [0, 1]] = fin 1 :=
  ⟨by decide, sample_variance_zero_one,
    (three_copies [0, 1] (List.range 10) (List.Perm.refl _) (by decide)
      sample_variance_zero_one).1⟩

/-- C10 (amended): for a collection of fewer than 2 series the accumulator ends
as `(0.0, 0)`, and `calc_corr` returns the quotient `0.0 / 0`, which is not a
number; its call ends with a returned value, in every order of the merges. -/
theorem calc_corr_small_returns (mv : List (List ℝ)) (order : List Nat)
    (hperm : order.Perm (List.range 10)) (h : mv.length < 2) :
    accumulate Real.sqrt order mv = (fin 0, 0) ∧
    calc_corr_sched Real.sqrt order mv = fin 0 / ofInt 0 ∧
    calc_corr_call Real.sqrt order mv = Outcome.returned nan := by
  refine ⟨accumulate_small Real.sqrt mv hperm h, ?_, ?_⟩
  · rw [calc_corr_sched_small Real.sqrt mv hperm h]
    simp [ofInt]
  · unfold calc_corr_call
    rw [calc_corr_sched_small Real.sqrt mv hperm h]

/-- C10 (amended) at the one-series collection `[[1, 2]]`. -/
theorem calc_corr_small_returns_witness :
    [([1, 2] : List ℝ)].length < 2 ∧
    calc_corr_call Real.sqrt (List.range 10) [([1, 2] : List ℝ)] = Outcome.returned nan :=
  ⟨by decide,
    (calc_corr_small_returns [[1, 2]] (List.range 10) (List.Perm.refl _) (by decide)).2.2⟩

/-- C10, as stated, fails on the one-series collection `[[1, 2]]`: the call of
`calc_corr` ends by returning the non-number `0.0 / 0`, not by signalling
`EmptyCollection`. -/
theorem calc_corr_no_error_signalled :
    calc_corr Real.sqrt [([1, 2] : List ℝ)] = nan ∧
    calc_corr_call Real.sqrt (List.range 10) [([1, 2] : List ℝ)] = Outcome.returned nan ∧
    calc_corr_call Real.sqrt (List.range 10) [([1, 2] : List ℝ)] ≠
      Outcome.raised DomainError.EmptyCollection := by
  have h : calc_corr_sched Real.sqrt (List.range 10) [([1, 2] : List ℝ)] = nan :=
    calc_corr_sched_small Real.sqrt _ (List.Perm.refl _) (by decide)
  refine ⟨(calc_corr_eq_sched Real.sqrt _).trans h, ?_, ?_⟩
  · unfold calc_corr_call
    rw [h]
  · unfold calc_corr_call
    intro hc
    cases hc

end EngineClaims

/-! ## Undefined inputs: what the code returns -/

section UndefinedLemmas

theorem correlation_degenerate {X Y : List ℝ} (hlen : X.length = Y.length)
    (hn : 2 ≤ X.length) (h0 : sample_variance X = 0 ∨ sample_variance Y = 0) :
    correlation Real.sqrt X Y = nan := by
  have hY : 2 ≤ Y.length := hlen ▸ hn
  rw [correlation_unfold Real.sqrt hlen hn, Dbl.sqrt_fin _ (sample_variance_nonneg hn),
    Dbl.sqrt_fin _ (sample_variance_nonneg hY), Dbl.fin_mul_fin]
  have hz : Real.sqrt (sample_variance X) * Real.sqrt (sample_variance Y) = 0 := by
    rcases h0 with h | h <;> simp [h]
  rw [hz, Dbl.fin_div_zero]

theorem map_range_getD_le {β : Type} (a b : List ℝ) (h : a.length ≤ b.length)
    (g : ℝ → ℝ → β) :
    (List.range a.length).map (fun i => g (a.getD i 0) (b.getD i 0)) = List.zipWith g a b := by
  apply List.ext_getElem
  · simp [h]
  · intro i h₁ h₂
    simp at h₁
    have h₃ : i < b.length := lt_of_lt_of_le h₁ h
    simp [List.getElem?_eq_getElem h₁, List.getElem?_eq_getElem h₃]

theorem covariance_eq_of_le {data1 data2 : List ℝ} (hle : data1.length ≤ data2.length)
    (h : 2 ≤ data1.length) (m1 m2 : ℝ) :
    covariance data1 data2 (fin m1) (fin m2) =
      fin ((List.zipWith (fun x y => (x - m1) * (y - m2)) data1 data2).sum /
        ((data1.length : ℝ) - 1)) := by
  have hne : ((data1.length : ℝ) - 1) ≠ 0 := (pred_length_pos h).ne'
  unfold covariance
  simp only [Int.toNat_ofNat, ofInt, Int.cast_sub, Int.cast_natCast, Int.cast_one]
  rw [loop_fin data1.length _ (fun i => (data1.getD i 0 - m1) * (data2.getD i 0 - m2))
      (fun i hi => by simp [rd_of_lt hi, rd_of_lt (lt_of_lt_of_le hi hle)]),
    map_range_getD_le data1 data2 hle (fun x y => (x - m1) * (y - m2)),
    Dbl.fin_div_fin_of_ne _ hne]

theorem correlation_of_shorter_first {data1 data2 : List ℝ}
    (hle : data1.length ≤ data2.length) (h : 2 ≤ data1.length)
    (h1 : sample_variance data1 ≠ 0) (h2 : sample_variance data2 ≠ 0) :
    correlation Real.sqrt data1 data2 =
      fin (sample_covariance data1 data2 /
        (Real.sqrt (sample_variance data1) * Real.sqrt (sample_variance data2))) := by
  have hY : 2 ≤ data2.length := le_trans h hle
  have hv1 : 0 < sample_variance data1 :=
    lt_of_le_of_ne (sample_variance_nonneg h) (Ne.symm h1)
  have hv2 : 0 < sample_variance data2 :=
    lt_of_le_of_ne (sample_variance_nonneg hY) (Ne.symm h2)
  have hden : Real.sqrt (sample_variance data1) * Real.sqrt (sample_variance data2) ≠ 0 :=
    mul_ne_zero (Real.sqrt_ne_zero'.mpr hv1) (Real.sqrt_ne_zero'.mpr hv2)
  unfold correlation
  simp only []
  rw [variance_mean_eq h, variance_mean_eq hY, mean_eq (ne_nil_of_two_le h),
    mean_eq (ne_nil_of_two_le hY), covariance_eq_of_le hle h, Dbl.sqrt_fin _ hv1.le,
    Dbl.sqrt_fin _ hv2.le, Dbl.fin_mul_fin, Dbl.fin_div_fin_of_ne _ hden]
  rfl

theorem total_nan_of_mem {l : List (Dbl ℝ)} (h : nan ∈ l) : total l = nan := by
  induction l with
  | nil => simp at h
  | cons t l ih =>
    rw [Dbl.total_cons]
    rcases List.mem_cons.mp h with h | h
    · rw [← h]
      rfl
    · rw [ih h]
      exact Dbl.add_nan t

theorem calc_corr_sched_nan {mv : List (List ℝ)} {order : List Nat}
    (hperm : order.Perm (List.range 10)) (hN : 10 * mv.length < 2147483648)
    {i j : Nat} (hij : i < j) (hj : j < mv.length)
    (hnan : correlation Real.sqrt (mv.getD i []) (mv.getD j []) = nan) :
    calc_corr_sched Real.sqrt order mv = nan := by
  rw [calc_corr_sched_eq Real.sqrt mv hperm hN, total_nan_of_mem, Dbl.nan_div]
  apply List.mem_map.mpr
  refine ⟨((i : Int), (j : Int)), mem_all_pairs.mpr ⟨by omega, by omega, by omega⟩, ?_⟩
  simpa using hnan

theorem sample_variance_one_one : sample_variance ([1, 1] : List ℝ) = 0 := by
  norm_num [sample_variance, dev_sq, arith_mean]

end UndefinedLemmas

/-! ## Undefined inputs: the claims -/

section UndefinedClaims

/-- C12 (amended): when `data1` is shorter than `data2` (length at least 2,
both variances non-zero), `correlation` signals no `ShapeMismatch`: its call
returns the finite number `cov / (sqrt(var1) * sqrt(var2))`, where the mean and
variance of `data2` run over all of `data2` and `cov` pairs `data1` with the
first `data1.size()` samples of `data2`. -/
theorem correlation_shorter_first_returns (data1 data2 : List ℝ)
    (hlt : data1.length < data2.length) (hn : 2 ≤ data1.length)
    (h1 : sample_variance data1 ≠ 0) (h2 : sample_variance data2 ≠ 0) :
    covariance_reads data1 = List.range data1.length ∧
    correlation_call Real.sqrt data1 data2 =
      Outcome.returned (fin (sample_covariance data1 data2 /
        (Real.sqrt (sample_variance data1) * Real.sqrt (sample_variance data2)))) := by
  refine ⟨by simp [covariance_reads], ?_⟩
  unfold correlation_call
  rw [correlation_of_shorter_first hlt.le hn h1 h2]

/-- C12 (amended) at `data1 = [1, 2]`, `data2 = [1, 2, 4]`. -/
theorem correlation_shorter_first_returns_witness :
    ([1, 2] : List ℝ).length < ([1, 2, 4] : List ℝ).length ∧
    correlation_call Real.sqrt ([1, 2] : List ℝ) [1, 2, 4] =
      Outcome.returned (fin (sample_covariance ([1, 2] : List ℝ) [1, 2, 4] /
        (Real.sqrt (sample_variance ([1, 2] : List ℝ)) *
          Real.sqrt (sample_variance ([1, 2, 4] : List ℝ))))) :=
  ⟨by decide,
    (correlation_shorter_first_returns [1, 2] [1, 2, 4] (by decide) (by decide)
      (by norm_num [sample_variance, dev_sq, arith_mean])
      (by norm_num [sample_variance, dev_sq, arith_mean])).2⟩

/-- C12, as stated, fails both ways: on `[1, 2]` against `[1, 2, 4]` the call
returns a finite number, and on `[1, 2, 3]` against `[1, 2]` the loop of
`covariance` reads `data2[2]`, past the end of `data2`; no `ShapeMismatch` is
signalled in either case. -/
theorem correlation_no_shape_error :
    ([1, 2] : List ℝ).length ≠ ([1, 2, 4] : List ℝ).length ∧
    (∃ r : ℝ, correlation Real.sqrt ([1, 2] : List ℝ) [1, 2, 4] = fin r) ∧
    correlation_call Real.sqrt ([1, 2] : List ℝ) [1, 2, 4] ≠
      Outcome.raised DomainError.ShapeMismatch ∧
    ([1, 2, 3] : List ℝ).length ≠ ([1, 2] : List ℝ).length ∧
    2 ∈ covariance_reads ([1, 2, 3] : List ℝ) ∧ ([1, 2] : List ℝ).length ≤ 2 ∧
    correlation_call Real.sqrt ([1, 2, 3] : List ℝ) [1, 2] ≠
      Outcome.raised DomainError.ShapeMismatch := by
  refine ⟨by decide, ⟨_, @correlation_of_shorter_first [1, 2] [1, 2, 4] (by decide) (by decide)
      (by norm_num [sample_variance, dev_sq, arith_mean])
      (by norm_num [sample_variance, dev_sq, arith_mean])⟩, ?_, by decide, ?_, by decide, ?_⟩
  · unfold correlation_call
    intro hc
    cases hc
  · simp [covariance_reads]
  · unfold correlation_call
    intro hc
    cases hc

end UndefinedClaims

/-! ## Bounds of the reads, sizes of the ranges, the pair counter -/

section BoundsLemmas

theorem mem_inner_range {i j : Int} {size : Nat} :
    j ∈ inner_range i size ↔ 0 ≤ wrap32 (i + 1) ∧ wrap32 (i + 1) ≤ j ∧ j < (size : Int) := by
  unfold inner_range
  simp only []
  split
  · next h =>
    simp only [List.not_mem_nil, false_iff]
    omega
  · next h =>
    simp only [List.mem_map, List.mem_range]
    constructor
    · rintro ⟨t, ht, rfl⟩
      omega
    · rintro ⟨_, h2, h3⟩
      exact ⟨(j - wrap32 (i + 1)).toNat, by omega, by omega⟩

theorem mem_child_pairs {start end_ : Int} {size : Nat} {p : Int × Int} :
    p ∈ child_pairs start end_ size ↔
      p.1 ∈ outer_range start end_ ∧ p.2 ∈ inner_range p.1 size := by
  unfold child_pairs
  simp only [List.mem_flatMap, List.mem_map]
  constructor
  · rintro ⟨i, hi, j, hj, rfl⟩
    exact ⟨hi, hj⟩
  · rintro ⟨h1, h2⟩
    exact ⟨p.1, h1, p.2, h2, rfl⟩

theorem outer_range_length (start end_ : Int) :
    (outer_range start end_).length = (end_ + 1 - start).toNat := by
  simp [outer_range]

theorem outer_range_empty {start end_ : Int} (h : end_ < start) :
    outer_range start end_ = [] := by
  apply List.eq_nil_of_length_eq_zero
  rw [outer_range_length]
  omega

theorem child_pairs_empty {start end_ : Int} (size : Nat) (h : end_ < start) :
    child_pairs start end_ size = [] := by
  unfold child_pairs
  rw [outer_range_empty h]
  rfl

theorem wrap32_bounds (x : Int) : -2147483648 ≤ wrap32 x ∧ wrap32 x < 2147483648 := by
  unfold wrap32
  omega

theorem pair_count_large {N : Nat} (h : 65536 < N) : 2147483648 ≤ N * (N - 1) / 2 := by
  have h1 : 65537 * 65536 ≤ N * (N - 1) := Nat.mul_le_mul (by omega) (by omega)
  omega

theorem worker_range_size {k N : Nat} (hk : k < 10) (hN : 10 * N < 2147483648) :
    (outer_range (worker_start (k : Int) (N : Int)) (worker_end (k : Int) (N : Int))).length =
      (k + 1) * N / 10 - k * N / 10 := by
  have hmono : k * N / 10 ≤ (k + 1) * N / 10 :=
    Nat.div_le_div_right (Nat.mul_le_mul_right N (by omega))
  rw [outer_range_length, worker_start_eq hk hN, worker_end_eq hk hN]
  omega

theorem range_size_floor_ceil {k N : Nat} (hk : k < 10) :
    (k + 1) * N / 10 - k * N / 10 = N / 10 ∨ (k + 1) * N / 10 - k * N / 10 = (N + 9) / 10 := by
  interval_cases k <;> omega

end BoundsLemmas

section BoundsClaims

/-- C15, as stated, fails for `N = 429496729`: `9 * N` and `10 * N` do not fit
an `int`, worker 9 gets the range `[-42949673, -1]`, and for `i = -1` its inner
loop starts at `j = 0`, so the pair `(-1, 0)` is visited and `(*data)[-1]` is
read outside the collection. -/
theorem reads_out_of_bounds :
    worker_start 9 ((429496729 : Nat) : Int) = -42949673 ∧
    worker_end 9 ((429496729 : Nat) : Int) = -1 ∧
    ((-1 : Int), (0 : Int)) ∈ visited 429496729 ∧
    ∀ mv : List (List ℝ), series_at mv (-1) = none := by
  refine ⟨by decide, by decide, ?_, fun mv => rfl⟩
  unfold visited
  rw [show NUM_PROCESSES.toNat = 10 from rfl]
  apply List.mem_flatMap.mpr
  refine ⟨9, by decide, ?_⟩
  unfold worker_pairs
  rw [mem_child_pairs, mem_outer_range, mem_inner_range]
  decide

/-- C16 (amended): for a collection size `N` with `10 * N <= 2^31 - 1`, range
`k` of `calc_corr` holds `(k+1)*N/10 - k*N/10` indices, which is `floor(N/10)`
or `ceil(N/10)`, and the sizes of two ranges differ by at most 1. -/
theorem partition_even (N : Nat) (hN : 10 * N < 2147483648) :
    (∀ k : Nat, k < 10 →
      (outer_range (worker_start (k : Int) (N : Int)) (worker_end (k : Int) (N : Int))).length =
        (k + 1) * N / 10 - k * N / 10 ∧
      ((k + 1) * N / 10 - k * N / 10 = N / 10 ∨
        (k + 1) * N / 10 - k * N / 10 = (N + 9) / 10)) ∧
    (∀ k m : Nat, k < 10 → m < 10 →
      (outer_range (worker_start (k : Int) (N : Int)) (worker_end (k : Int) (N : Int))).length ≤
        (outer_range (worker_start (m : Int) (N : Int))
          (worker_end (m : Int) (N : Int))).length + 1) := by
  constructor
  · intro k hk
    exact ⟨worker_range_size hk hN, range_size_floor_ceil hk⟩
  · intro k m hk hm
    rw [worker_range_size hk hN, worker_range_size hm hN]
    have h1 := range_size_floor_ceil (N := N) hk
    have h2 := range_size_floor_ceil (N := N) hm
    omega

/-- C16 (amended) at `N = 25`: range 3 is `[7, 9]`, of size 3. -/
theorem partition_even_witness :
    10 * 25 < 2147483648 ∧
    (outer_range (worker_start ((3 : Nat) : Int) ((25 : Nat) : Int))
      (worker_end ((3 : Nat) : Int) ((25 : Nat) : Int))).length = (3 + 1) * 25 / 10 - 3 * 25 / 10 :=
  ⟨by decide, ((partition_even 25 (by decide)).1 3 (by decide)).1⟩

/-- C16, as stated, fails for `N = 214748365`: `10 * N` does not fit an `int`,
range 9 is `[193273528, -214748365]` and holds no index, while
`floor(N/10) = 21474836`, `ceil(N/10) = 21474837` and range 0 holds 21474836
indices. -/
theorem partition_uneven :
    (outer_range (worker_start 9 ((214748365 : Nat) : Int))
      (worker_end 9 ((214748365 : Nat) : Int))).length = 0 ∧
    (outer_range (worker_start 0 ((214748365 : Nat) : Int))
      (worker_end 0 ((214748365 : Nat) : Int))).length = 21474836 ∧
    214748365 / 10 = 21474836 ∧ (214748365 + 9) / 10 = 21474837 := by
  refine ⟨?_, ?_, by decide, by decide⟩
  · rw [outer_range_length]
    decide
  · rw [outer_range_length]
    decide

/-- C19: with the `int` counters wrapping modulo `2^32`, the divisor `count` of
`calc_corr` equals the number of pairs `N*(N-1)/2` exactly when `N <= 65536`;
for `N = 65537` the number of pairs is `2147516416 > 2^31 - 1` and the stored
count is `-2147450880`. -/
theorem pair_counter_32bit (mv : List (List ℝ)) (order : List Nat)
    (hperm : order.Perm (List.range 10)) :
    ((accumulate Real.sqrt order mv).2 = ((mv.length * (mv.length - 1) / 2 : Nat) : Int) ↔
      mv.length ≤ 65536) ∧
    (mv.length = 65537 →
      mv.length * (mv.length - 1) / 2 = 2147516416 ∧ 2 ^ 31 - 1 < 2147516416 ∧
      (accumulate Real.sqrt order mv).2 = -2147450880) := by
  rw [accumulate_perm Real.sqrt mv hperm]
  simp only []
  constructor
  · constructor
    · intro h
      by_contra hc
      have h1 := pair_count_large (by omega : 65536 < mv.length)
      have h2 := wrap32_bounds ((visited mv.length).length : Int)
      omega
    · intro h
      rw [visited_eq_all_pairs (by omega), length_all_pairs]
      have h1 := pair_count_small h
      exact wrap32_of_range (by omega) (by omega)
  · intro h
    rw [visited_eq_all_pairs (by omega), length_all_pairs, h]
    exact ⟨by decide, by decide, by decide⟩

/-- C19 at the two-series collection `[[0, 1], [0, 1]]`. -/
theorem pair_counter_32bit_witness :
    (List.range 10).Perm (List.range 10) ∧
    ((accumulate Real.sqrt (List.range 10) [([0, 1] : List ℝ), [0, 1]]).2 =
        (([([0, 1] : List ℝ), [0, 1]].length *
          ([([0, 1] : List ℝ), [0, 1]].length - 1) / 2 : Nat) : Int) ↔
      [([0, 1] : List ℝ), [0, 1]].length ≤ 65536) :=
  ⟨List.Perm.refl _, (pair_counter_32bit [[0, 1], [0, 1]] (List.range 10) (List.Perm.refl _)).1⟩

end BoundsClaims

/-! ## Boundedness -/

section BoundedLemmas

theorem sum_range_eq_finset (f : Nat → ℝ) (n : Nat) :
    ((List.range n).map f).sum = ∑ i ∈ Finset.range n, f i := by
  induction n with
  | zero => simp
  | succ n ih => simp [List.range_succ, Finset.sum_range_succ, ih]

theorem dev_prod_sq_le {X Y : List ℝ} (hlen : X.length = Y.length) :
    dev_prod X Y ^ 2 ≤ dev_sq X * dev_sq Y := by
  have h1 : dev_prod X Y =
      ∑ i ∈ Finset.range X.length,
        (X.getD i 0 - arith_mean X) * (Y.getD i 0 - arith_mean Y) := by
    unfold dev_prod
    rw [← map_range_getD₂ X Y hlen, sum_range_eq_finset]
  have h2 : dev_sq X = ∑ i ∈ Finset.range X.length, (X.getD i 0 - arith_mean X) ^ 2 := by
    unfold dev_sq
    rw [← map_range_getD X, sum_range_eq_finset]
    apply Finset.sum_congr rfl
    intro i _
    ring
  have h3 : dev_sq Y = ∑ i ∈ Finset.range X.length, (Y.getD i 0 - arith_mean Y) ^ 2 := by
    unfold dev_sq
    rw [hlen, ← map_range_getD Y, sum_range_eq_finset]
    apply Finset.sum_congr rfl
    intro i _
    ring
  rw [h1, h2, h3]
  exact Finset.sum_mul_sq_le_sq_mul_sq _ _ _

theorem pearson_bounds {X Y : List ℝ} (hlen : X.length = Y.length) (hn : 2 ≤ X.length)
    (hX : sample_variance X ≠ 0) (hY : sample_variance Y ≠ 0) :
    -1 ≤ pearson Real.sqrt X Y ∧ pearson Real.sqrt X Y ≤ 1 := by
  have hdX : 0 < dev_sq X :=
    lt_of_le_of_ne (dev_sq_nonneg X) (Ne.symm ((sample_variance_ne_zero_iff hn).mp hX))
  have hdY : 0 < dev_sq Y :=
    lt_of_le_of_ne (dev_sq_nonneg Y)
      (Ne.symm ((sample_variance_ne_zero_iff (hlen ▸ hn)).mp hY))
  have hpos : 0 < Real.sqrt (dev_sq X * dev_sq Y) := Real.sqrt_pos.mpr (mul_pos hdX hdY)
  have habs : |dev_prod X Y| ≤ Real.sqrt (dev_sq X * dev_sq Y) :=
    Real.abs_le_sqrt (dev_prod_sq_le hlen)
  have h := abs_le.mp habs
  unfold pearson
  constructor
  · rw [le_div_iff₀ hpos]
    linarith [h.1]
  · rw [div_le_one hpos]
    exact h.2

theorem list_sum_bounds (l : List ℝ) (h : ∀ x, x ∈ l → -1 ≤ x ∧ x ≤ 1) :
    -(l.length : ℝ) ≤ l.sum ∧ l.sum ≤ (l.length : ℝ) := by
  induction l with
  | nil => simp
  | cons x l ih =>
    have hx := h x (List.mem_cons_self x l)
    have hl := ih (fun y hy => h y (List.mem_cons_of_mem x hy))
    simp only [List.sum_cons, List.length_cons, Nat.cast_add, Nat.cast_one]
    constructor <;> linarith [hx.1, hx.2, hl.1, hl.2]

theorem mean_pairwise_bounds (mv : List (List ℝ)) (n : Nat) (hN2 : 2 ≤ mv.length)
    (hn : 2 ≤ n) (hlen : ∀ s, s ∈ mv → s.length = n)
    (hvar : ∀ s, s ∈ mv → sample_variance s ≠ 0) :
    ∃ r : ℝ, mean_pairwise Real.sqrt mv = fin r ∧ -1 ≤ r ∧ r ≤ 1 := by
  refine ⟨_, mean_pairwise_fin mv n hN2 hn hlen hvar, ?_⟩
  have hP : (0 : ℝ) < ((mv.length * (mv.length - 1) / 2 : Nat) : ℝ) := by
    have := pair_count_pos hN2
    exact_mod_cast (by omega : 0 < mv.length * (mv.length - 1) / 2)
  have hb := list_sum_bounds
    ((all_pairs mv.length).map
      (fun p => pearson Real.sqrt (mv.getD p.1.toNat []) (mv.getD p.2.toNat [])))
    (by
      intro x hx
      obtain ⟨p, hp, rfl⟩ := List.mem_map.mp hx
      have hb := all_pairs_bounds hp
      have h1 := getD_mem mv hb.1
      have h2 := getD_mem mv hb.2
      exact pearson_bounds ((hlen _ h1).trans (hlen _ h2).symm)
        (by rw [hlen _ h1]; exact hn) (hvar _ h1) (hvar _ h2))
  rw [List.length_map, length_all_pairs] at hb
  constructor
  · rw [le_div_iff₀ hP]
    linarith [hb.1]
  · rw [div_le_one hP]
    exact hb.2

theorem calc_corr_replicate_65537 :
    calc_corr Real.sqrt (List.replicate 65537 ([0, 1] : List ℝ)) =
      fin (2147516416 / (-2147450880)) := by
  have hX : correlation Real.sqrt ([0, 1] : List ℝ) [0, 1] = fin 1 :=
    correlation_self_eq_one (by decide) sample_variance_zero_one
  generalize hmv : List.replicate 65537 ([0, 1] : List ℝ) = mv
  have hlen : mv.length = 65537 := by rw [← hmv]; exact List.length_replicate _ _
  have hall : ∀ s, s ∈ mv → s = [0, 1] := by
    intro s hs
    rw [← hmv] at hs
    exact List.eq_of_mem_replicate hs
  have hP : mv.length * (mv.length - 1) / 2 = 2147516416 := by rw [hlen]
  rw [calc_corr_eq_sched,
    calc_corr_sched_identical mv [0, 1] (List.Perm.refl _) (by rw [hlen]; decide) hall hX, hP,
    show wrap32 ((2147516416 : Nat) : Int) = -2147450880 from by decide]
  unfold ofInt
  rw [Dbl.fin_div_fin_of_ne _ (by norm_num)]
  norm_num

end BoundedLemmas

section BoundedClaims

/-- C18 (amended): for two series of equal length `n >= 2` with non-zero sample
variances, `correlation` returns a number between `-1` and `1`; and for a
collection of `2 <= N <= 65536` such series of one length, `calc_corr` returns
a number between `-1` and `1`, in every order of the merges. -/
theorem correlation_and_average_bounded :
    (∀ X Y : List ℝ, X.length = Y.length → 2 ≤ X.length →
      sample_variance X ≠ 0 → sample_variance Y ≠ 0 →
      ∃ r : ℝ, correlation Real.sqrt X Y = fin r ∧ -1 ≤ r ∧ r ≤ 1) ∧
    (∀ (mv : List (List ℝ)) (order : List Nat) (n : Nat),
      order.Perm (List.range 10) → 2 ≤ mv.length → mv.length ≤ 65536 → 2 ≤ n →
      (∀ s, s ∈ mv → s.length = n) → (∀ s, s ∈ mv → sample_variance s ≠ 0) →
      ∃ r : ℝ, calc_corr_sched Real.sqrt order mv = fin r ∧ -1 ≤ r ∧ r ≤ 1) := by
  constructor
  · intro X Y hlen hn hX hY
    exact ⟨_, correlation_eq_pearson hlen hn hX hY, pearson_bounds hlen hn hX hY⟩
  · intro mv order n hperm hN2 hN hn hlen hvar
    rw [calc_corr_sched_eq_mean Real.sqrt mv hperm hN]
    exact mean_pairwise_bounds mv n hN2 hn hlen hvar

/-- C18 (amended) at `X = [1, 2, 3, 4]`, `Y = [4, 3, 2, 1]`. -/
theorem correlation_and_average_bounded_witness :
    ∃ r : ℝ, correlation Real.sqrt ([1, 2, 3, 4] : List ℝ) [4, 3, 2, 1] = fin r ∧
      -1 ≤ r ∧ r ≤ 1 :=
  correlation_and_average_bounded.1 [1, 2, 3, 4] [4, 3, 2, 1] rfl (by decide)
    (by norm_num [sample_variance, dev_sq, arith_mean])
    (by norm_num [sample_variance, dev_sq, arith_mean])

/-- C18, as stated, fails for `N = 65537` identical series `[0, 1]`: the `int`
pair counter wraps and `calc_corr` returns `2147516416 / (-2147450880)`, a
number below `-1`. -/
theorem calc_corr_below_minus_one :
    (∀ s, s ∈ List.replicate 65537 ([0, 1] : List ℝ) →
      s.length = 2 ∧ sample_variance s ≠ 0) ∧
    calc_corr Real.sqrt (List.replicate 65537 ([0, 1] : List ℝ)) =
      fin (2147516416 / (-2147450880)) ∧
    (2147516416 / (-2147450880) : ℝ) < -1 := by
  refine ⟨?_, calc_corr_replicate_65537, by norm_num⟩
  intro s hs
  rw [List.eq_of_mem_replicate hs]
  exact ⟨rfl, sample_variance_zero_one⟩

end BoundedClaims

/-! ## Any number of workers -/

section WorkersLemmas

theorem worker_start_n_eq {W k N : Nat} (hk : k * N < 2147483648) :
    worker_start_n (W : Int) (k : Int) (N : Int) = ((k * N / W : Nat) : Int) := by
  unfold worker_start_n
  have hcast : (k : Int) * (N : Int) = ((k * N : Nat) : Int) := by push_cast; ring
  rw [hcast]
  generalize k * N = m at hk ⊢
  rw [wrap32_of_range (by omega) (by omega), Int.tdiv_eq_ediv (by omega) (by omega),
    Int.natCast_div]

theorem worker_end_n_eq {W k N : Nat} (hk1 : k + 1 < 2147483648)
    (hk : (k + 1) * N < 2147483648) :
    worker_end_n (W : Int) (k : Int) (N : Int) = (((k + 1) * N / W : Nat) : Int) - 1 := by
  unfold worker_end_n
  rw [wrap32_of_range (x := (k : Int) + 1) (by omega) (by omega)]
  have hcast : ((k : Int) + 1) * (N : Int) = (((k + 1) * N : Nat) : Int) := by push_cast; ring
  rw [hcast]
  have hdiv : (k + 1) * N / W ≤ (k + 1) * N := Nat.div_le_self _ _
  generalize (k + 1) * N = m at hk hdiv ⊢
  rw [wrap32_of_range (x := (m : Int)) (by omega) (by omega),
    Int.tdiv_eq_ediv (by omega) (by omega), ← Int.natCast_div]
  generalize m / W = q at hdiv ⊢
  exact wrap32_of_range (by omega) (by omega)

theorem worker_pairs_n_eq {W k N : Nat} (hk1 : k + 1 < 2147483648)
    (hk : (k + 1) * N < 2147483648) :
    worker_pairs_n W k N = pairs_between (k * N / W) ((k + 1) * N / W - k * N / W) N := by
  have hkN : k * N ≤ (k + 1) * N := Nat.mul_le_mul_right N (by omega)
  have hdiv : (k + 1) * N / W ≤ (k + 1) * N := Nat.div_le_self _ _
  unfold worker_pairs_n
  rw [worker_start_n_eq (by omega), worker_end_n_eq hk1 hk, child_pairs_eq _ _ _ (by omega)]

theorem visited_prefix_n {W N : Nat} (m : Nat) (hm1 : m < 2147483648)
    (hm : m * N < 2147483648) :
    (List.range m).flatMap (fun k => worker_pairs_n W k N) = pairs_between 0 (m * N / W) N := by
  induction m with
  | zero => simp [pairs_between]
  | succ m ih =>
    have hle : m * N ≤ (m + 1) * N := Nat.mul_le_mul_right N (by omega)
    have hmono : m * N / W ≤ (m + 1) * N / W := Nat.div_le_div_right hle
    rw [List.range_succ, List.flatMap_append, ih (by omega) (by omega), List.flatMap_singleton,
      worker_pairs_n_eq hm1 hm]
    have h := pairs_between_append 0 (m * N / W) ((m + 1) * N / W - m * N / W) N
    rw [Nat.zero_add] at h
    rw [h]
    congr 1
    omega

theorem merge_fold {α : Type} [LinearOrderedField α] (rt : α → α) (mv : List (List α))
    (se : Nat → Int × Int) (order : List Nat) (s : Dbl α) (c : Int) :
    order.foldl (fun acc (k : Nat) => merge acc (calc_corr_child rt (se k).1 (se k).2 mv))
        (s, wrap32 c) =
      (s + total ((order.flatMap (fun k => child_pairs (se k).1 (se k).2 mv.length)).map
          (pair_corr rt mv)),
        wrap32 (c + ((order.flatMap
          (fun k => child_pairs (se k).1 (se k).2 mv.length)).length : Int))) := by
  induction order generalizing s c with
  | nil => simp [Dbl.total_nil, Dbl.add_zero]
  | cons k order ih =>
    simp only [List.foldl_cons, List.flatMap_cons, List.map_append, List.length_append]
    rw [calc_corr_child_eq, merge_mk, wrap32_add_left, wrap32_add_right, ih,
      Dbl.total_append, Dbl.add_assoc]
    congr 2
    push_cast
    ring

theorem accumulate_n_eq {α : Type} [LinearOrderedField α] (rt : α → α) (W : Nat)
    (order : List Nat) (mv : List (List α)) :
    accumulate_n rt W order mv =
      (total ((order.flatMap (fun k => worker_pairs_n W k mv.length)).map (pair_corr rt mv)),
        wrap32 ((order.flatMap (fun k => worker_pairs_n W k mv.length)).length : Int)) := by
  have h := merge_fold rt mv
    (fun k => (worker_start_n (W : Int) (k : Int) (mv.length : Int),
      worker_end_n (W : Int) (k : Int) (mv.length : Int))) order (fin 0) 0
  rw [show wrap32 0 = 0 from rfl, Dbl.zero_add, zero_add] at h
  simp only [] at h
  unfold accumulate_n worker_pairs_n
  exact h

theorem calc_corr_workers_eq {α : Type} [LinearOrderedField α] (rt : α → α) {W : Nat}
    {order : List Nat} (mv : List (List α)) (hW : 0 < W) (hW1 : W < 2147483648)
    (hperm : order.Perm (List.range W)) (hN : W * mv.length < 2147483648) :
    calc_corr_workers rt W order mv =
      total ((all_pairs mv.length).map (pair_corr rt mv)) /
        ofInt (wrap32 ((mv.length * (mv.length - 1) / 2 : Nat) : Int)) := by
  unfold calc_corr_workers
  simp only []
  rw [accumulate_n_eq]
  have hp : (order.flatMap (fun k => worker_pairs_n W k mv.length)).Perm
      (all_pairs mv.length) := by
    have h1 := List.Perm.flatMap_right (fun k => worker_pairs_n W k mv.length) hperm
    rw [visited_prefix_n W hW1 hN, Nat.mul_div_cancel_left _ hW] at h1
    exact h1
  simp only []
  rw [Dbl.total_perm (hp.map _), hp.length_eq, length_all_pairs]

theorem calc_corr_workers_ten {α : Type} [LinearOrderedField α] (rt : α → α)
    (order : List Nat) (mv : List (List α)) :
    calc_corr_workers rt 10 order mv = calc_corr_sched rt order mv := rfl

theorem total_identical_upto (mv : List (List ℝ)) (X : List ℝ) (m : Nat)
    (hm : m ≤ mv.length) (hall : ∀ s, s ∈ mv → s = X)
    (hX : correlation Real.sqrt X X = fin 1) :
    total ((pairs_between 0 m mv.length).map (pair_corr Real.sqrt mv)) =
      fin ((pairs_between 0 m mv.length).length : ℝ) := by
  apply total_map_one
  intro p hp
  have hp2 : p ∈ all_pairs mv.length := by
    obtain ⟨i, j, rfl, h1, h2, h3, h4⟩ := mem_pairs_between.mp hp
    exact mem_pairs_between.mpr ⟨i, j, rfl, h1, by omega, h3, h4⟩
  have hb := all_pairs_bounds hp2
  rw [pair_corr_of_mem Real.sqrt mv hp2, hall _ (getD_mem mv hb.1),
    hall _ (getD_mem mv hb.2), hX]

end WorkersLemmas

section WorkersClaims

/-- C14 (amended): for a collection of `N` series with `10 * N <= 2^31 - 1`,
the partition-and-accumulate algorithm of `calc_corr` run with 1, with 2 and
with 10 workers (the value of `NUM_PROCESSES`) returns the same average,
whatever the order of the merges in each run. -/
theorem worker_count_independent (mv : List (List ℝ)) (o1 o2 o10 : List Nat)
    (h1 : o1.Perm (List.range 1)) (h2 : o2.Perm (List.range 2))
    (h10 : o10.Perm (List.range 10)) (hN : 10 * mv.length < 2147483648) :
    calc_corr_workers Real.sqrt 1 o1 mv = calc_corr_workers Real.sqrt 10 o10 mv ∧
    calc_corr_workers Real.sqrt 2 o2 mv = calc_corr_workers Real.sqrt 10 o10 mv ∧
    calc_corr_workers Real.sqrt 10 o10 mv = calc_corr_sched Real.sqrt o10 mv := by
  rw [calc_corr_workers_eq Real.sqrt mv (by decide) (by decide) h1 (by omega),
    calc_corr_workers_eq Real.sqrt mv (by decide) (by decide) h2 (by omega),
    calc_corr_workers_eq Real.sqrt mv (by decide) (by decide) h10 (by omega)]
  refine ⟨rfl, rfl, ?_⟩
  rw [← calc_corr_workers_ten,
    calc_corr_workers_eq Real.sqrt mv (by decide) (by decide) h10 (by omega)]

/-- C14 (amended) at the collection `[[0, 1], [0, 2], [1, 0]]`. -/
theorem worker_count_independent_witness :
    10 * [([0, 1] : List ℝ), [0, 2], [1, 0]].length < 2147483648 ∧
    calc_corr_workers Real.sqrt 1 [0] [([0, 1] : List ℝ), [0, 2], [1, 0]] =
      calc_corr_workers Real.sqrt 10 (List.range 10) [([0, 1] : List ℝ), [0, 2], [1, 0]] ∧
    calc_corr_workers Real.sqrt 2 [1, 0] [([0, 1] : List ℝ), [0, 2], [1, 0]] =
      calc_corr_workers Real.sqrt 10 (List.range 10) [([0, 1] : List ℝ), [0, 2], [1, 0]] :=
  ⟨by decide,
    (worker_count_independent [[0, 1], [0, 2], [1, 0]] [0] [1, 0] (List.range 10)
      (List.Perm.refl _) (List.Perm.swap 0 1 []) (List.Perm.refl _) (by decide)).1,
    (worker_count_independent [[0, 1], [0, 2], [1, 0]] [0] [1, 0] (List.range 10)
      (List.Perm.refl _) (List.Perm.swap 0 1 []) (List.Perm.refl _) (by decide)).2.1⟩

/-- C14, as stated, fails for `N = 214748365` identical series `[0, 1]`: with
10 workers `10 * N` does not fit an `int`, the last worker gets an empty range
and only `22827845726361564` of the `23058430027712430` pairs are summed, so the
run with 10 workers and the run with 1 worker return different numbers. -/
theorem worker_count_matters :
    (∀ s, s ∈ List.replicate 214748365 ([0, 1] : List ℝ) →
      s.length = 2 ∧ sample_variance s ≠ 0) ∧
    calc_corr_workers Real.sqrt 1 [0] (List.replicate 214748365 ([0, 1] : List ℝ)) =
      fin (23058430027712430 / 450971566) ∧
    calc_corr_workers Real.sqrt 10 (List.range 10)
        (List.replicate 214748365 ([0, 1] : List ℝ)) =
      fin (22827845726361564 / 58841052) ∧
    calc_corr_workers Real.sqrt 1 [0] (List.replicate 214748365 ([0, 1] : List ℝ)) ≠
      calc_corr_workers Real.sqrt 10 (List.range 10)
        (List.replicate 214748365 ([0, 1] : List ℝ)) := by
  have hX : correlation Real.sqrt ([0, 1] : List ℝ) [0, 1] = fin 1 :=
    correlation_self_eq_one (by decide) sample_variance_zero_one
  have hmem : ∀ s, s ∈ List.replicate 214748365 ([0, 1] : List ℝ) →
      s.length = 2 ∧ sample_variance s ≠ 0 := by
    intro s hs
    rw [List.eq_of_mem_replicate hs]
    exact ⟨rfl, sample_variance_zero_one⟩
  generalize hmv : List.replicate 214748365 ([0, 1] : List ℝ) = mv at hmem ⊢
  have hlen : mv.length = 214748365 := by rw [← hmv]; exact List.length_replicate _ _
  have hall : ∀ s, s ∈ mv → s = [0, 1] := by
    intro s hs
    rw [← hmv] at hs
    exact List.eq_of_mem_replicate hs
  have hone : calc_corr_workers Real.sqrt 1 [0] mv = fin (23058430027712430 / 450971566) := by
    rw [@calc_corr_workers_eq ℝ _ Real.sqrt 1 [0] mv (by decide) (by decide)
      (List.Perm.refl _) (by rw [hlen]; decide)]
    have ht := total_identical_upto mv [0, 1] mv.length (le_refl _) hall hX
    rw [show pairs_between 0 mv.length mv.length = all_pairs mv.length from rfl,
      length_all_pairs] at ht
    rw [ht, show mv.length * (mv.length - 1) / 2 = 23058430027712430 from by rw [hlen],
      show wrap32 ((23058430027712430 : Nat) : Int) = 450971566 from by decide]
    unfold ofInt
    rw [Dbl.fin_div_fin_of_ne _ (by norm_num)]
    norm_num
  have hten : calc_corr_workers Real.sqrt 10 (List.range 10) mv =
      fin (22827845726361564 / 58841052) := by
    have hpairs : (List.range 10).flatMap (fun k => worker_pairs_n 10 k mv.length) =
        pairs_between 0 193273528 mv.length := by
      rw [List.range_succ, List.flatMap_append, List.flatMap_singleton,
        visited_prefix_n 9 (by decide) (by rw [hlen]; decide)]
      have hlast : worker_pairs_n 10 9 mv.length = [] := by
        unfold worker_pairs_n
        apply child_pairs_empty
        rw [hlen]
        decide
      rw [hlast, List.append_nil, hlen]
    have hL : (pairs_between 0 193273528 mv.length).length = 22827845726361564 := by
      have h := length_pairs_prefix mv.length 193273528 (by rw [hlen]; decide)
      rw [hlen] at h ⊢
      omega
    unfold calc_corr_workers
    simp only []
    rw [accumulate_n_eq, hpairs]
    simp only []
    rw [total_identical_upto mv [0, 1] 193273528 (by rw [hlen]; decide) hall hX, hL,
      show wrap32 ((22827845726361564 : Nat) : Int) = 58841052 from by decide]
    unfold ofInt
    rw [Dbl.fin_div_fin_of_ne _ (by norm_num)]
    norm_num
  refine ⟨hmem, hone, hten, ?_⟩
  rw [hone, hten]
  intro h
  injection h with h
  norm_num at h

end WorkersClaims

/-! ## Reads inside the collection, and what a zero computed variance gives -/

section InRangeLemmas

theorem tdiv_ten (x : Int) :
    (0 ≤ x ∧ x.tdiv 10 = x / 10) ∨ (x < 0 ∧ x.tdiv 10 = -((-x) / 10)) := by
  rcases le_or_lt 0 x with h | h
  · exact Or.inl ⟨h, Int.tdiv_eq_ediv h (by decide)⟩
  · right
    refine ⟨h, ?_⟩
    have h1 := Int.neg_tdiv (-x) 10
    rw [neg_neg] at h1
    rw [h1, Int.tdiv_eq_ediv (by omega) (by decide)]

theorem worker_start_bounds (i col : Int) :
    -214748364 ≤ worker_start i col ∧ worker_start i col ≤ 214748364 := by
  unfold worker_start NUM_PROCESSES
  have hb := wrap32_bounds (i * col)
  generalize wrap32 (i * col) = x at hb ⊢
  rcases tdiv_ten x with ⟨h, e⟩ | ⟨h, e⟩ <;> rw [e] <;> omega

theorem worker_end_bounds (i col : Int) :
    -214748365 ≤ worker_end i col ∧ worker_end i col ≤ 214748363 := by
  unfold worker_end NUM_PROCESSES
  have hb := wrap32_bounds (wrap32 (i + 1) * col)
  generalize wrap32 (wrap32 (i + 1) * col) = x at hb ⊢
  rcases tdiv_ten x with ⟨h, e⟩ | ⟨h, e⟩ <;> rw [e] <;>
    rw [wrap32_of_range (by omega) (by omega)] <;> omega

theorem wrap32_cases {z : Int} (h0 : 0 ≤ z) (h1 : z < 4294967296) :
    (z < 2147483648 ∧ wrap32 z = z) ∨ (2147483648 ≤ z ∧ wrap32 z = z - 4294967296) := by
  unfold wrap32
  omega

theorem range_without_minus_one {k N : Nat} (hk : k < 10) (hN : N ≤ 429496728) :
    ¬ (worker_start (k : Int) (N : Int) ≤ -1 ∧ -1 ≤ worker_end (k : Int) (N : Int)) := by
  rintro ⟨h1, h2⟩
  have hz2 : (k + 1) * N ≤ 10 * N := Nat.mul_le_mul_right N (by omega)
  have hz1 : k * N ≤ (k + 1) * N := Nat.mul_le_mul_right N (by omega)
  unfold worker_start NUM_PROCESSES at h1
  unfold worker_end NUM_PROCESSES at h2
  rw [wrap32_of_range (x := (k : Int) + 1) (by omega) (by omega)] at h2
  have hc1 : (k : Int) * (N : Int) = ((k * N : Nat) : Int) := by push_cast; ring
  have hc2 : ((k : Int) + 1) * (N : Int) = (((k + 1) * N : Nat) : Int) := by push_cast; ring
  rw [hc1] at h1
  rw [hc2] at h2
  generalize k * N = z1 at h1 hz1
  generalize (k + 1) * N = z2 at h2 hz1 hz2
  clear hc1 hc2
  rcases wrap32_cases (z := (z1 : Int)) (by omega) (by omega) with ⟨ha, ea⟩ | ⟨ha, ea⟩
  · rw [ea] at h1
    rw [Int.tdiv_eq_ediv (by omega) (by decide)] at h1
    omega
  · rcases wrap32_cases (z := (z2 : Int)) (by omega) (by omega) with ⟨hb, eb⟩ | ⟨hb, eb⟩
    · omega
    · rw [eb] at h2
      rcases tdiv_ten ((z2 : Int) - 4294967296) with ⟨hy0, ey⟩ | ⟨hy0, ey⟩
      · omega
      · rw [ey] at h2
        have hq : 1 ≤ (-((z2 : Int) - 4294967296)) / 10 := by omega
        have hq2 : (-((z2 : Int) - 4294967296)) / 10 ≤ 429496729 := by omega
        generalize (-((z2 : Int) - 4294967296)) / 10 = q at h2 hq hq2
        rw [wrap32_of_range (by omega) (by omega)] at h2
        omega

theorem visited_in_bounds {N : Nat} (hN : N ≤ 429496728) {p : Int × Int}
    (hp : p ∈ visited N) : 0 ≤ p.1 ∧ p.1 < p.2 ∧ p.2 < (N : Int) := by
  unfold visited at hp
  rw [show NUM_PROCESSES.toNat = 10 from rfl] at hp
  obtain ⟨k, hk, hpk⟩ := List.mem_flatMap.mp hp
  have hk10 : k < 10 := List.mem_range.mp hk
  unfold worker_pairs at hpk
  obtain ⟨hout, hin⟩ := mem_child_pairs.mp hpk
  have ho := mem_outer_range.mp hout
  obtain ⟨hj0, hj1, hj2⟩ := mem_inner_range.mp hin
  have hs := worker_start_bounds (k : Int) (N : Int)
  have he := worker_end_bounds (k : Int) (N : Int)
  have hno := range_without_minus_one hk10 hN
  rw [wrap32_of_range (by omega) (by omega)] at hj0 hj1
  refine ⟨?_, by omega, hj2⟩
  by_contra hneg
  have hm1 : p.1 = -1 := by omega
  rw [hm1] at ho
  exact hno ho

theorem series_at_of_bounds {α : Type} (mv : List (List α)) {i : Int} (h0 : 0 ≤ i)
    (h1 : i < (mv.length : Int)) : (series_at mv i).isSome = true := by
  unfold series_at
  have hn : ¬ (i < 0) := by omega
  rw [if_neg hn]
  have hlt : i.toNat < mv.length := by omega
  simp [List.getElem?_eq_getElem hlt]

theorem zero_pair_visited {N j : Nat} (hN : N < 2147483648) (h1 : 1 ≤ j) (hj : j < N) :
    ((0 : Int), (j : Int)) ∈ visited N := by
  rcases Nat.lt_or_ge N 10 with hsmall | hbig
  · rw [visited_eq_all_pairs (by omega)]
    exact mem_all_pairs.mpr ⟨le_refl _, by omega, by omega⟩
  · unfold visited
    rw [show NUM_PROCESSES.toNat = 10 from rfl]
    apply List.mem_flatMap.mpr
    refine ⟨0, by decide, ?_⟩
    have hs : worker_start ((0 : Nat) : Int) (N : Int) = ((0 * N / 10 : Nat) : Int) :=
      @worker_start_n_eq 10 0 N (by omega)
    have he : worker_end ((0 : Nat) : Int) (N : Int) = (((0 + 1) * N / 10 : Nat) : Int) - 1 :=
      @worker_end_n_eq 10 0 N (by decide) (by omega)
    unfold worker_pairs
    rw [mem_child_pairs, mem_outer_range, mem_inner_range, hs, he]
    simp only []
    rw [show wrap32 ((0 : Int) + 1) = 1 from by decide]
    refine ⟨⟨by omega, by omega⟩, by decide, by omega, by omega⟩

theorem variance_zero_iff {X : List ℝ} (hn : 2 ≤ X.length) :
    variance X (mean X) = fin 0 ↔ sample_variance X = 0 := by
  rw [variance_mean_eq hn]
  constructor
  · intro h
    injection h
  · intro h
    rw [h]

theorem variance_one_one : variance ([1, 1] : List ℝ) (mean [1, 1]) = fin 0 :=
  (variance_zero_iff (by decide)).mpr sample_variance_one_one

theorem sqrt_product_zero {X Y : List ℝ} (hlen : X.length = Y.length) (hn : 2 ≤ X.length)
    (h0 : variance X (mean X) = fin 0 ∨ variance Y (mean Y) = fin 0) :
    Dbl.sqrt Real.sqrt (variance X (mean X)) * Dbl.sqrt Real.sqrt (variance Y (mean Y)) =
      fin 0 := by
  have hY : 2 ≤ Y.length := hlen ▸ hn
  have h0s : sample_variance X = 0 ∨ sample_variance Y = 0 :=
    h0.imp (variance_zero_iff hn).mp (variance_zero_iff hY).mp
  rw [variance_mean_eq hn, variance_mean_eq hY, Dbl.sqrt_fin _ (sample_variance_nonneg hn),
    Dbl.sqrt_fin _ (sample_variance_nonneg hY), Dbl.fin_mul_fin]
  congr 1
  rcases h0s with h | h <;> simp [h]

theorem correlation_zero_variance {X Y : List ℝ} (hlen : X.length = Y.length)
    (hn : 2 ≤ X.length)
    (h0 : variance X (mean X) = fin 0 ∨ variance Y (mean Y) = fin 0) :
    correlation Real.sqrt X Y = nan :=
  correlation_degenerate hlen hn
    (h0.imp (variance_zero_iff hn).mp (variance_zero_iff (hlen ▸ hn)).mp)

theorem calc_corr_sched_zero_variance {mv : List (List ℝ)} {order : List Nat} {n i : Nat}
    (hperm : order.Perm (List.range 10)) (hN2 : 2 ≤ mv.length)
    (hN : mv.length ≤ 429496728) (hn : 2 ≤ n) (hlen : ∀ s, s ∈ mv → s.length = n)
    (hi : i < mv.length)
    (hvar : variance (mv.getD i []) (mean (mv.getD i [])) = fin 0) :
    calc_corr_sched Real.sqrt order mv = nan := by
  obtain ⟨j, hj1, hj, hij⟩ : ∃ j, 1 ≤ j ∧ j < mv.length ∧ (i = 0 ∨ i = j) := by
    rcases Nat.eq_zero_or_pos i with h | h
    · exact ⟨1, le_refl _, by omega, Or.inl h⟩
    · exact ⟨i, h, hi, Or.inr rfl⟩
  have h0mem := getD_mem mv (by omega : 0 < mv.length)
  have hjmem := getD_mem mv hj
  have hcorr : correlation Real.sqrt (mv.getD 0 []) (mv.getD j []) = nan := by
    apply correlation_zero_variance ((hlen _ h0mem).trans (hlen _ hjmem).symm)
      (by rw [hlen _ h0mem]; exact hn)
    rcases hij with h | h
    · left
      rw [← h]
      exact hvar
    · right
      rw [← h]
      exact hvar
  unfold calc_corr_sched
  simp only []
  rw [accumulate_perm Real.sqrt mv hperm]
  simp only []
  rw [total_nan_of_mem, Dbl.nan_div]
  apply List.mem_map.mpr
  refine ⟨((0 : Int), (j : Int)), zero_pair_visited (by omega) hj1 hj, ?_⟩
  unfold pair_corr
  simp only []
  rw [show ((0 : Int)) = ((0 : Nat) : Int) from rfl,
    series_at_natCast mv (by omega : 0 < mv.length), series_at_natCast mv hj]
  exact hcorr

end InRangeLemmas

section InRangeClaims

/-- C11 (amended): for two series of equal length at least 2 such that the
variance the code computes for one of them, `variance(data, mean(data))`, is
exactly zero, `correlation` signals nothing: the denominator
`sqrt(var1) * sqrt(var2)` is zero and the call returns the quotient by it,
which is not a finite number. -/
theorem correlation_constant_returns (X Y : List ℝ) (hlen : X.length = Y.length)
    (hn : 2 ≤ X.length)
    (h0 : variance X (mean X) = fin 0 ∨ variance Y (mean Y) = fin 0) :
    Dbl.sqrt Real.sqrt (variance X (mean X)) * Dbl.sqrt Real.sqrt (variance Y (mean Y)) =
      fin 0 ∧
    correlation Real.sqrt X Y = nan ∧
    correlation_call Real.sqrt X Y = Outcome.returned nan := by
  refine ⟨sqrt_product_zero hlen hn h0, correlation_zero_variance hlen hn h0, ?_⟩
  unfold correlation_call
  rw [correlation_zero_variance hlen hn h0]

/-- C11 (amended) at the series `[1, 1]`, whose computed variance is exactly
zero, and `[1, 2]`. -/
theorem correlation_constant_returns_witness :
    variance ([1, 1] : List ℝ) (mean [1, 1]) = fin 0 ∧
    correlation_call Real.sqrt ([1, 1] : List ℝ) [1, 2] = Outcome.returned nan :=
  ⟨variance_one_one,
    (correlation_constant_returns [1, 1] [1, 2] rfl (by decide)
      (Or.inl variance_one_one)).2.2⟩

/-- C11, as stated, fails on the constant series `[1, 1]` against `[1, 2]`:
the computed mean is `1`, the computed variance is exactly `0`, and the call
returns the quotient `0 / 0`, not a number; no `DegenerateSeries` is
signalled. -/
theorem correlation_no_degenerate_error :
    mean ([1, 1] : List ℝ) = fin 1 ∧
    variance ([1, 1] : List ℝ) (mean [1, 1]) = fin 0 ∧
    correlation Real.sqrt ([1, 1] : List ℝ) [1, 2] = nan ∧
    correlation_call Real.sqrt ([1, 1] : List ℝ) [1, 2] ≠
      Outcome.raised DomainError.DegenerateSeries := by
  have h : correlation Real.sqrt ([1, 1] : List ℝ) [1, 2] = nan :=
    @correlation_zero_variance [1, 1] [1, 2] rfl (by decide) (Or.inl variance_one_one)
  refine ⟨?_, variance_one_one, h, ?_⟩
  · rw [mean_eq (by simp)]
    norm_num [arith_mean]
  · unfold correlation_call
    intro hc
    cases hc

/-- C15 (amended): for a collection of `N <= 429496728` series (also `N < 10`,
where some ranges are empty), every pair `(i, j)` visited by a worker of
`calc_corr` has `0 <= i < N` and `i < j < N`, so both reads `(*data)[i]` and
`(*data)[j]` are inside the collection; and, for every `N`, a worker whose
range is empty (`end < start`) visits no pair and hands `local_sum = 0`,
`local_count = 0` to the merge. -/
theorem reads_in_bounds (mv : List (List ℝ)) :
    (mv.length ≤ 429496728 →
      ∀ p : Int × Int, p ∈ visited mv.length →
        (0 ≤ p.1 ∧ p.1 < (mv.length : Int)) ∧ (p.1 < p.2 ∧ p.2 < (mv.length : Int)) ∧
        (series_at mv p.1).isSome = true ∧ (series_at mv p.2).isSome = true) ∧
    (∀ start end_ : Int, end_ < start →
      child_pairs start end_ mv.length = [] ∧
      calc_corr_child Real.sqrt start end_ mv = (fin 0, 0)) := by
  constructor
  · intro hN p hp
    obtain ⟨h0, h1, h2⟩ := visited_in_bounds hN hp
    exact ⟨⟨h0, by omega⟩, ⟨h1, h2⟩, series_at_of_bounds mv h0 (by omega),
      series_at_of_bounds mv (by omega) h2⟩
  · intro start end_ h
    refine ⟨child_pairs_empty _ h, ?_⟩
    rw [calc_corr_child_eq, child_pairs_empty _ h]
    rfl

/-- C15 (amended) at the collection of three copies of `[0, 1]`: the pair
`(1, 2)` is visited, and worker 0 has the empty range `[0, -1]`. -/
theorem reads_in_bounds_witness :
    [([0, 1] : List ℝ), [0, 1], [0, 1]].length ≤ 429496728 ∧
    ((1 : Int), (2 : Int)) ∈ visited [([0, 1] : List ℝ), [0, 1], [0, 1]].length ∧
    ((series_at [([0, 1] : List ℝ), [0, 1], [0, 1]] 1).isSome = true ∧
      (series_at [([0, 1] : List ℝ), [0, 1], [0, 1]] 2).isSome = true) ∧
    calc_corr_child Real.sqrt 0 (-1) [([0, 1] : List ℝ), [0, 1], [0, 1]] = (fin 0, 0) :=
  ⟨by decide, by decide,
    ((reads_in_bounds [[0, 1], [0, 1], [0, 1]]).1 (by decide) (1, 2) (by decide)).2.2,
    ((reads_in_bounds [[0, 1], [0, 1], [0, 1]]).2 0 (-1) (by decide)).2⟩

end InRangeClaims

end Corr

/-! # Maximum drawdown: the loop invariant and the result -/

namespace itdog

open Corr Corr.Dbl

theorem running_max_ge (arr : List ℚ) {i j : Nat} (h : j ≤ i) :
    arr.getD j 0 ≤ running_max arr i := by
  induction i with
  | zero =>
    have : j = 0 := by omega
    rw [this]
    exact le_refl _
  | succ i ih =>
    rcases Nat.lt_or_ge j (i + 1) with h1 | h1
    · exact le_trans (ih (by omega)) (le_max_left _ _)
    · have : j = i + 1 := by omega
      rw [this]
      exact le_max_right _ _

theorem running_max_attained (arr : List ℚ) (i : Nat) :
    ∃ j, j ≤ i ∧ running_max arr i = arr.getD j 0 := by
  induction i with
  | zero => exact ⟨0, le_refl _, rfl⟩
  | succ i ih =>
    obtain ⟨j, hj, hm⟩ := ih
    rcases le_total (running_max arr i) (arr.getD (i + 1) 0) with h | h
    · exact ⟨i + 1, le_refl _, max_eq_right h⟩
    · exact ⟨j, by omega, (max_eq_left h).trans hm⟩

theorem running_max_pos (arr : List ℚ) (hpos : 0 < arr.getD 0 0) (i : Nat) :
    0 < running_max arr i :=
  lt_of_lt_of_le hpos (running_max_ge arr (Nat.zero_le i))

theorem drawdown_at_nonneg (arr : List ℚ) (hpos : 0 < arr.getD 0 0) (i : Nat) :
    0 ≤ drawdown_at arr i := by
  unfold drawdown_at
  apply div_nonneg
  · linarith [running_max_ge arr (le_refl i)]
  · exact (running_max_pos arr hpos i).le

theorem drawdown_at_zero (arr : List ℚ) : drawdown_at arr 0 = 0 := by
  simp [drawdown_at, running_max]

theorem drawdown_at_eq_zero_iff (arr : List ℚ) (hpos : 0 < arr.getD 0 0) (i : Nat) :
    drawdown_at arr i = 0 ↔ ∀ j, j ≤ i → arr.getD j 0 ≤ arr.getD i 0 := by
  have hM := running_max_pos arr hpos i
  unfold drawdown_at
  rw [div_eq_zero_iff]
  constructor
  · intro h j hj
    rcases h with h | h
    · have := running_max_ge arr hj
      linarith
    · linarith
  · intro h
    left
    obtain ⟨j, hj, hm⟩ := running_max_attained arr i
    have h1 := h j hj
    have h2 := running_max_ge arr (le_refl i)
    linarith

theorem drawdown_invariant (arr : List ℚ) (hpos : 0 < arr.getD 0 0) (k : Nat)
    (hk : k < arr.length) :
    ∃ m d : ℚ,
      (List.range' 1 k).foldl (fun st (i : Nat) => drawdown_step st (rd arr i))
          { max_drawdown := fin 0, cum_max := rd arr 0, drawdown := fin 0 } =
        { max_drawdown := fin m, cum_max := fin (running_max arr k), drawdown := fin d } ∧
      (∃ i, i ≤ k ∧ m = drawdown_at arr i) ∧ ∀ i, i ≤ k → drawdown_at arr i ≤ m := by
  induction k with
  | zero =>
    refine ⟨0, 0, ?_, ⟨0, le_refl _, (drawdown_at_zero arr).symm⟩, ?_⟩
    · simp only [List.range'_zero, List.foldl_nil]
      rw [rd_of_lt (by omega : 0 < arr.length)]
      rfl
    · intro i hi
      have : i = 0 := by omega
      rw [this, drawdown_at_zero]
  | succ k ih =>
    obtain ⟨m, d, hst, ⟨i0, hi0, hm⟩, hub⟩ := ih (by omega)
    have hM := running_max_pos arr hpos k
    have hm0 : 0 ≤ m := by
      have := hub 0 (Nat.zero_le k)
      rwa [drawdown_at_zero] at this
    rw [List.range'_1_concat, List.foldl_append, hst, List.foldl_cons, List.foldl_nil,
      show 1 + k = k + 1 from Nat.add_comm 1 k, rd_of_lt hk]
    by_cases hgt : running_max arr k < arr.getD (k + 1) 0
    · have hmax : running_max arr (k + 1) = arr.getD (k + 1) 0 := max_eq_right hgt.le
      have hdd : drawdown_at arr (k + 1) = 0 := by
        unfold drawdown_at
        rw [hmax, sub_self, zero_div]
      refine ⟨m, 0, ?_, ⟨i0, by omega, hm⟩, ?_⟩
      · simp only [drawdown_step, Dbl.gt, hgt, decide_True, if_true, hmax]
      · intro i hi
        rcases Nat.lt_or_ge i (k + 1) with h | h
        · exact hub i (by omega)
        · have : i = k + 1 := by omega
          rw [this, hdd]
          exact hm0
    · have hmax : running_max arr (k + 1) = running_max arr k :=
        max_eq_left (not_lt.mp hgt)
      have hdd : drawdown_at arr (k + 1) =
          (running_max arr k - arr.getD (k + 1) 0) / running_max arr k := by
        unfold drawdown_at
        rw [hmax]
      have hdiv : (fin (running_max arr k) - fin (arr.getD (k + 1) 0) : Dbl ℚ) /
          fin (running_max arr k) = fin (drawdown_at arr (k + 1)) := by
        rw [Dbl.fin_sub_fin, Dbl.fin_div_fin_of_ne _ hM.ne', hdd]
      by_cases hbig : m < drawdown_at arr (k + 1)
      · refine ⟨drawdown_at arr (k + 1), drawdown_at arr (k + 1), ?_,
          ⟨k + 1, le_refl _, rfl⟩, ?_⟩
        · simp only [drawdown_step, Dbl.gt, hgt, decide_False, Bool.false_eq_true, if_false,
            hdiv, hbig, decide_True, if_true, hmax]
        · intro i hi
          rcases Nat.lt_or_ge i (k + 1) with h | h
          · exact le_trans (hub i (by omega)) hbig.le
          · have : i = k + 1 := by omega
            rw [this]
      · refine ⟨m, drawdown_at arr (k + 1), ?_, ⟨i0, by omega, hm⟩, ?_⟩
        · simp only [drawdown_step, Dbl.gt, hgt, decide_False, Bool.false_eq_true, if_false,
            hdiv, hbig, hmax]
        · intro i hi
          rcases Nat.lt_or_ge i (k + 1) with h | h
          · exact hub i (by omega)
          · have : i = k + 1 := by omega
            rw [this]
            exact not_lt.mp hbig

theorem cal_max_drawdown_eq (arr : List ℚ) (hn : 1 ≤ arr.length) (hpos : 0 < arr.getD 0 0) :
    ∃ m : ℚ, cal_max_drawdown_parallel arr (arr.length : Int) = fin (-m) ∧
      (∃ i, i < arr.length ∧ m = drawdown_at arr i) ∧
      ∀ i, i < arr.length → drawdown_at arr i ≤ m := by
  obtain ⟨m, d, hst, ⟨i0, hi0, hm⟩, hub⟩ :=
    drawdown_invariant arr hpos (arr.length - 1) (by omega)
  refine ⟨m, ?_, ⟨i0, by omega, hm⟩, fun i hi => hub i (by omega)⟩
  unfold cal_max_drawdown_parallel drawdown_loop
  have hcount : ((arr.length : Int) - 1).toNat = arr.length - 1 := by omega
  rw [hcount, hst]
  simp

/-- C20: for an array of length `n >= 1` with `arr[0] > 0`,
`cal_max_drawdown_parallel(arr, n)` returns `-m`, where `m` is the maximum over
`0 <= i < n` of `(M_i - arr[i]) / M_i` and `M_i` is the running maximum of
`arr[0..i]`; the result is at most `0`, and it is `0` exactly when `arr` is
non-decreasing. -/
theorem max_drawdown_contract (arr : List ℚ) (hn : 1 ≤ arr.length)
    (hpos : 0 < arr.getD 0 0) :
    ∃ m : ℚ,
      cal_max_drawdown_parallel arr (arr.length : Int) = fin (-m) ∧
      (∃ i, i < arr.length ∧ m = drawdown_at arr i) ∧
      (∀ i, i < arr.length → drawdown_at arr i ≤ m) ∧
      (∀ i, (∀ j, j ≤ i → arr.getD j 0 ≤ running_max arr i) ∧
        ∃ j, j ≤ i ∧ running_max arr i = arr.getD j 0) ∧
      -m ≤ 0 ∧
      (-m = 0 ↔ ∀ i j, i ≤ j → j < arr.length → arr.getD i 0 ≤ arr.getD j 0) := by
  obtain ⟨m, hres, ⟨i0, hi0, hm⟩, hub⟩ := cal_max_drawdown_eq arr hn hpos
  have hm0 : 0 ≤ m := by
    rw [hm]
    exact drawdown_at_nonneg arr hpos i0
  refine ⟨m, hres, ⟨i0, hi0, hm⟩, hub,
    fun i => ⟨fun j hj => running_max_ge arr hj, running_max_attained arr i⟩,
    by linarith, ?_⟩
  constructor
  · intro h i j hij hj
    have h1 : drawdown_at arr j = 0 :=
      le_antisymm (by linarith [hub j hj]) (drawdown_at_nonneg arr hpos j)
    exact (drawdown_at_eq_zero_iff arr hpos j).mp h1 i hij
  · intro h
    have h1 : drawdown_at arr i0 = 0 :=
      (drawdown_at_eq_zero_iff arr hpos i0).mpr (fun j hj => h j i0 hj hi0)
    rw [hm, h1, neg_zero]

/-- C20 at `arr = [10, 12, 9, 11, 6, 13]`. -/
theorem max_drawdown_contract_witness :
    1 ≤ ([10, 12, 9, 11, 6, 13] : List ℚ).length ∧
    0 < ([10, 12, 9, 11, 6, 13] : List ℚ).getD 0 0 ∧
    ∃ m : ℚ,
      cal_max_drawdown_parallel ([10, 12, 9, 11, 6, 13] : List ℚ)
        (([10, 12, 9, 11, 6, 13] : List ℚ).length : Int) = fin (-m) ∧
      (∃ i, i < ([10, 12, 9, 11, 6, 13] : List ℚ).length ∧
        m = drawdown_at ([10, 12, 9, 11, 6, 13] : List ℚ) i) :=
  ⟨by decide, by norm_num,
    (max_drawdown_contract [10, 12, 9, 11, 6, 13] (by decide) (by norm_num)).imp
      (fun _ h => ⟨h.1, h.2.1⟩)⟩

end itdog
